import Mathlib

/-!
Verification of the Gomoku move-suggestion engine (`gomoku_engine.py`).

The board is embedded as a list of rows of natural-number cell values
(0 = empty, 1 = black, 2 = white), exactly as the Python engine receives it.
The engine's `board_size` field is passed explicitly as `N`; all bounds
checks in the source compare against `board_size`, and all cell reads go
through numpy indexing, which we model with `cellAt` (reads are only ever
performed under an in-bounds guard in the source, so the default value of
out-of-range reads is irrelevant).  Scores, which the source computes in
floating point on small integer-valued weights, are modelled as exact
rationals.  The random tie-breaking draw of `_evaluate_move` is passed in
explicitly as a rational parameter.
-/

namespace Gomoku

/-- A board is a list of rows of cell values, as received from the caller. -/
abbrev Board := List (List Nat)

/-- Read the cell at integer coordinates; out-of-range reads default to 0.
The source only reads after an explicit bounds check against `board_size`. -/
def cellAt (b : Board) (r c : Int) : Nat :=
  if 0 ≤ r ∧ 0 ≤ c then (b.getD r.toNat []).getD c.toNat 0 else 0

/-- Read the cell at natural coordinates (used for stated properties). -/
def cellNat (b : Board) (rc : Nat × Nat) : Nat :=
  (b.getD rc.1 []).getD rc.2 0

/-- The bounds check `0 <= r < self.board_size and 0 <= c < self.board_size`. -/
def inBounds (N : Nat) (r c : Int) : Prop :=
  0 ≤ r ∧ r < (N : Int) ∧ 0 ≤ c ∧ c < (N : Int)

instance (N : Nat) (r c : Int) : Decidable (inBounds N r c) := by
  unfold inBounds; infer_instance

/-- A well-formed board of side `N`: square with cell values in {0, 1, 2}. -/
def Wellformed (N : Nat) (b : Board) : Prop :=
  b.length = N ∧ (∀ row ∈ b, row.length = N) ∧ ∀ row ∈ b, ∀ v ∈ row, v ≤ 2

instance (N : Nat) (b : Board) : Decidable (Wellformed N b) := by
  unfold Wellformed; infer_instance

/-- One bounded counting loop of `_check_line`: walk from `(r, c)` in
direction `(dr, dc)`, counting consecutive in-bounds cells equal to
`p`; the fuel models the `count < length` conjunct of the loop guard. -/
def cnt (N : Nat) (b : Board) (r c dr dc : Int) (p : Nat) : Nat → Nat
  | 0 => 0
  | fuel + 1 =>
    if inBounds N r c ∧ cellAt b r c = p then
      cnt N b (r + dr) (c + dc) dr dc p fuel + 1
    else 0

/-- `GomokuEngine._check_line`: count in the positive direction from
`(row, col)`, continue in the negative direction from `(row-dr, col-dc)`
with the remaining budget, and test whether `length` was reached. -/
def checkLine (N : Nat) (b : Board) (row col dr dc : Int) (p : Nat)
    (length : Nat) : Bool :=
  let c1 := cnt N b row col dr dc p length
  let c2 := cnt N b (row - dr) (col - dc) (-dr) (-dc) p (length - c1)
  decide (length ≤ c1 + c2)

/-- The `for _ in range(n): r += dr; c += dc` stepping loop of
`_check_open_line`. -/
def stepN (r c dr dc : Int) : Nat → Int × Int
  | 0 => (r, c)
  | n + 1 => stepN (r + dr) (c + dc) dr dc n

/-- `GomokuEngine._check_open_line`: a line of `length` must exist, and at
least one of the two cells reached by stepping `length` times from the
origin in the positive respectively negative direction must be an
in-bounds empty cell. -/
def checkOpenLine (N : Nat) (b : Board) (row col dr dc : Int) (p : Nat)
    (length : Nat) : Bool :=
  if checkLine N b row col dr dc p length then
    let pos := stepN row col dr dc length
    let neg := stepN row col (-dr) (-dc) length
    decide ((inBounds N pos.1 pos.2 ∧ cellAt b pos.1 pos.2 = 0) ∨
            (inBounds N neg.1 neg.2 ∧ cellAt b neg.1 neg.2 = 0))
  else false

/-- The cell at `(r, c)` is in bounds and empty (helper notion used to
state claims about open lines). -/
def openEndAt (N : Nat) (b : Board) (r c : Int) : Prop :=
  inBounds N r c ∧ cellAt b r c = 0

instance (N : Nat) (b : Board) (r c : Int) : Decidable (openEndAt N b r c) := by
  unfold openEndAt; infer_instance

/-- Stated from the spec sentence for claim C6: the run found by
`run_length` occupies `c1` cells forward of the origin and `c2` cells
backward of it; the run is open when the cell one step past the forward
end or one step past the backward end is in-bounds and empty. -/
def runEndsOpen (N : Nat) (b : Board) (row col dr dc : Int) (p : Nat)
    (length : Nat) : Prop :=
  let c1 := cnt N b row col dr dc p length
  let c2 := cnt N b (row - dr) (col - dc) (-dr) (-dc) p (length - c1)
  openEndAt N b (row + (c1 : Int) * dr) (col + (c1 : Int) * dc) ∨
  openEndAt N b (row - ((c2 : Int) + 1) * dr) (col - ((c2 : Int) + 1) * dc)

instance (N : Nat) (b : Board) (row col dr dc : Int) (p len : Nat) :
    Decidable (runEndsOpen N b row col dr dc p len) := by
  unfold runEndsOpen; infer_instance

/-- A 5x5 board whose top row starts with three stones of player 1; used
to separate `_check_open_line` from the claimed past-the-run-end reading. -/
def boardC6 : Board :=
  [[1, 1, 1, 0, 0], [0, 0, 0, 0, 0], [0, 0, 0, 0, 0], [0, 0, 0, 0, 0],
   [0, 0, 0, 0, 0]]

/-- A 7x7 board whose top row starts with three stones of player 1; from the
empty origin (0,3) the direction (0,1) sees an open run of 3 but the negated
direction (0,-1) does not. -/
def boardC8 : Board :=
  [[1, 1, 1, 0, 0, 0, 0], [0, 0, 0, 0, 0, 0, 0], [0, 0, 0, 0, 0, 0, 0],
   [0, 0, 0, 0, 0, 0, 0], [0, 0, 0, 0, 0, 0, 0], [0, 0, 0, 0, 0, 0, 0],
   [0, 0, 0, 0, 0, 0, 0]]

/-- `np.where(board == v)` for a 2D array: the row-major list of coordinates
of the cells holding value `v`. -/
def wherePositions (b : Board) (v : Nat) : List (Nat × Nat) :=
  (List.range b.length).flatMap (fun r =>
    ((List.range ((b.getD r []).length)).filter
       (fun c => decide ((b.getD r []).getD c 0 = v))).map (fun c => (r, c)))

/-- Decimal digits of a natural number (fuel-driven helper). -/
def natCharsA : Nat → Nat → List Char
  | 0, _ => []
  | fuel + 1, n =>
    if n < 10 then [Char.ofNat (48 + n)]
    else natCharsA fuel (n / 10) ++ [Char.ofNat (48 + n % 10)]

/-- Decimal digits of a natural number, as rendered by Python `str`. -/
def natChars (n : Nat) : List Char := natCharsA (n + 1) n

/-- The `f"B{r},{c}"` tag of a black stone in `_board_to_string`. -/
def tagB (r c : Nat) : List Char := 'B' :: (natChars r ++ ',' :: natChars c)

/-- The `f"W{r},{c}"` tag of a white stone in `_board_to_string`. -/
def tagW (r c : Nat) : List Char := 'W' :: (natChars r ++ ',' :: natChars c)

/-- The unsorted position-tag list built by `_board_to_string`: black tags
(row-major) followed by white tags (row-major). -/
def tags (b : Board) : List (List Char) :=
  (wherePositions b 1).map (fun rc => tagB rc.1 rc.2) ++
  (wherePositions b 2).map (fun rc => tagW rc.1 rc.2)

/-- Python string comparison: lexicographic by character code points. -/
def lexLe : List Char → List Char → Bool
  | [], _ => true
  | _ :: _, [] => false
  | a :: as, b :: bs => if a = b then lexLe as bs else decide (a < b)

/-- The ordering relation used to model Python `sorted` on position tags. -/
def lexLeR (s t : List Char) : Prop := lexLe s t = true

instance : DecidableRel lexLeR := fun s t => by unfold lexLeR; infer_instance

/-- The sorted tag list of `_board_to_string` (duplicates are impossible,
and ties under the total order are identical strings, so any sorting
algorithm produces the list Python's `sorted` does). -/
def sortedTags (b : Board) : List (List Char) :=
  List.insertionSort lexLeR (tags b)

/-- `"_".join(ts)` on character lists. -/
def joinU : List (List Char) → List Char
  | [] => []
  | [t] => t
  | t :: ts => t ++ '_' :: joinU ts

/-- `GomokuEngine._board_to_string`: the sorted, underscore-joined list of
player-tagged stone coordinates. -/
def boardToString (b : Board) : List Char :=
  joinU (sortedTags b)

/-- Write value `v` at cell `(r, c)` (numpy item assignment). -/
def placeAt (b : Board) (r c : Nat) (v : Nat) : Board :=
  b.set r ((b.getD r []).set c v)

/-- `np.zeros((15, 15))`. -/
def empty15 : Board := List.replicate 15 (List.replicate 15 0)

/-- `GomokuEngine._initialize_opening_book`, built exactly as in the source:
the empty board mapping to the centre, four adjacent-reply entries and four
two-step-reply entries, keyed by `_board_to_string` of the constructed
15x15 boards. -/
def openingBook : List (List Char × (Nat × Nat)) :=
  (boardToString empty15, (7, 7)) ::
  (([((0 : Int), (1 : Int)), (1, 0), (1, 1), (1, -1)].map (fun d =>
      (boardToString
         (placeAt (placeAt empty15 7 7 1) (7 + d.1).toNat (7 + d.2).toNat 2),
       ((7 - d.1).toNat, (7 - d.2).toNat)))) ++
   ([((0 : Int), (2 : Int)), (2, 0), (2, 2), (2, -2)].map (fun d =>
      (boardToString
         (placeAt (placeAt empty15 7 7 1) (7 + d.1).toNat (7 + d.2).toNat 2),
       ((7 + d.1 / 2).toNat, (7 + d.2 / 2).toNat)))))

/-- The set of keys of the opening book. -/
def bookKeys : List (List Char) := openingBook.map Prod.fst

/-- `board_str in self.opening_book` / `self.opening_book[board_str]`
(the keys are pairwise distinct, so first-match lookup is dict lookup). -/
def bookLookup (k : List Char) : Option (Nat × Nat) :=
  List.lookup k openingBook

/-- The nine stone configurations (black positions, white positions) whose
boards are keys of the opening book. -/
def bookConfigs : List (List (Nat × Nat) × List (Nat × Nat)) :=
  [([], []),
   ([(7, 7)], [(7, 8)]), ([(7, 7)], [(8, 7)]), ([(7, 7)], [(8, 8)]),
   ([(7, 7)], [(8, 6)]), ([(7, 7)], [(7, 9)]), ([(7, 7)], [(9, 7)]),
   ([(7, 7)], [(9, 9)]), ([(7, 7)], [(9, 5)])]

/-- The value parsed back from a decimal digit string (verification helper
for the injectivity of the decimal rendering). -/
def parseNat (l : List Char) : Nat :=
  l.foldl (fun a ch => 10 * a + (ch.toNat - 48)) 0

/-- Row-major enumeration of a rectangle of coordinates (canonical
enumeration used to compare stone sets of boards of different sizes). -/
def pairEnum (R C : Nat) : List (Nat × Nat) :=
  (List.range R).flatMap (fun r => (List.range C).map (fun c => (r, c)))

/-- The largest row length of a board. -/
def maxRowLen (b : Board) : Nat := (b.map List.length).foldr max 0

/-- `np.where(board > 0)` for a 2D array: the row-major list of coordinates
of the occupied cells. -/
def occupiedPositions (b : Board) : List (Nat × Nat) :=
  (List.range b.length).flatMap (fun r =>
    ((List.range ((b.getD r []).length)).filter
       (fun c => decide (0 < (b.getD r []).getD c 0))).map (fun c => (r, c)))

/-- The offsets scanned by `_get_valid_moves`:
`for dr in range(-2, 3): for dc in range(-2, 3)`. -/
def offsets : List (Int × Int) :=
  (List.range 5).flatMap (fun i =>
    (List.range 5).map (fun j => ((i : Int) - 2, (j : Int) - 2)))

/-- The candidate cell `(r + dr, c + dc)` as natural coordinates. -/
def candTgt (s : Nat × Nat) (off : Int × Int) : Nat × Nat :=
  (((s.1 : Int) + off.1).toNat, ((s.2 : Int) + off.2).toNat)

/-- The acceptance test of `_get_valid_moves` for a neighbour cell:
in bounds and empty (the duplicate test is applied against the
accumulator separately). -/
def candCond (N : Nat) (b : Board) (s : Nat × Nat) (off : Int × Int) : Prop :=
  inBounds N ((s.1 : Int) + off.1) ((s.2 : Int) + off.2) ∧
  cellAt b ((s.1 : Int) + off.1) ((s.2 : Int) + off.2) = 0

instance (N : Nat) (b : Board) (s : Nat × Nat) (off : Int × Int) :
    Decidable (candCond N b s off) := by
  unfold candCond; infer_instance

/-- One step of the candidate accumulation loop of `_get_valid_moves`. -/
def addCandidate (N : Nat) (b : Board) (s : Nat × Nat)
    (acc : List (Nat × Nat)) (off : Int × Int) : List (Nat × Nat) :=
  if candCond N b s off ∧ candTgt s off ∉ acc then acc ++ [candTgt s off]
  else acc

/-- `GomokuEngine._get_valid_moves`: the centre cell when the board has no
stones, otherwise every in-bounds empty cell within the 5x5 neighbourhood
of a stone, deduplicated, in first-discovery order. -/
def getValidMoves (N : Nat) (b : Board) : List (Nat × Nat) :=
  let occ := occupiedPositions b
  if occ.isEmpty then [(N / 2, N / 2)]
  else occ.foldl (fun acc s => offsets.foldl (addCandidate N b s) acc) []

/-- Chebyshev distance between two cells (used to state claim C7). -/
def chebDist (a b : Nat × Nat) : Nat :=
  max ((a.1 - b.1) + (b.1 - a.1)) ((a.2 - b.2) + (b.2 - a.2))

/-- The four axis directions scanned by the engine. -/
def axes : List (Int × Int) := [(1, 0), (0, 1), (1, 1), (1, -1)]

/-- Placing the player's stone at `m` completes a run of 5 along some axis
(the win test applied to each candidate in `_check_immediate_threats` and
at the top of `_evaluate_move`). -/
def makesFiveAt (N : Nat) (b : Board) (m : Nat × Nat) (p : Nat) : Bool :=
  let tb := placeAt b m.1 m.2 p
  axes.any (fun d => checkLine N tb m.1 m.2 d.1 d.2 p 5)

/-- `GomokuEngine._check_immediate_threats`: the first candidate move that
wins for the player, else the first that would win for the opponent. -/
def checkImmediateThreats (N : Nat) (b : Board) (p : Nat) :
    Option (Nat × Nat) :=
  let vm := getValidMoves N b
  match vm.find? (fun m => makesFiveAt N b m p) with
  | some m => some m
  | none => vm.find? (fun m => makesFiveAt N b m (3 - p))

/-- `np.count_nonzero(board_array)`. -/
def stoneCount (b : Board) : Nat :=
  (b.map (fun row => (row.filter (fun v => decide (v ≠ 0))).length)).sum

/-- The deterministic part of `_evaluate_move`'s accumulated score, after
the five short-circuit: every weight the source adds (including the scaled
ones, `100000 * 0.9 = 90000`, `10000 * 0.8 = 8000`, `5000 * 0.8 = 4000`,
`1000 * 0.7 = 700`) is an integer, so this part of the float score is
integral and is embedded in `Int`; the scaled weights are written as exact
integer quotients mirroring the source's products. -/
def evalStages (N : Nat) (b : Board) (m : Nat × Nat) (p : Nat) : Int :=
  let opp := 3 - p
  let tbP := placeAt b m.1 m.2 p
  let tbO := placeAt b m.1 m.2 opp
  let s1 := axes.foldl (fun s d =>
    if checkLine N tbO m.1 m.2 d.1 d.2 opp 5 then s + 100000 * 9 / 10
    else s) 0
  let s2 := axes.foldl (fun s d =>
    if checkOpenLine N tbP m.1 m.2 d.1 d.2 p 4 then s + 10000
    else if checkLine N tbP m.1 m.2 d.1 d.2 p 4 then s + 5000 else s) s1
  let s3 := axes.foldl (fun s d =>
    if checkOpenLine N tbP m.1 m.2 d.1 d.2 p 3 then s + 1000
    else if checkLine N tbP m.1 m.2 d.1 d.2 p 3 then s + 500 else s) s2
  let s4 := axes.foldl (fun s d =>
    if checkOpenLine N tbP m.1 m.2 d.1 d.2 p 2 then s + 100
    else if checkLine N tbP m.1 m.2 d.1 d.2 p 2 then s + 50 else s) s3
  let s5 := axes.foldl (fun s d =>
    if checkOpenLine N tbO m.1 m.2 d.1 d.2 opp 4 then s + 10000 * 8 / 10
    else if checkLine N tbO m.1 m.2 d.1 d.2 opp 4 then s + 5000 * 8 / 10
    else s) s4
  let s6 := axes.foldl (fun s d =>
    if checkOpenLine N tbO m.1 m.2 d.1 d.2 opp 3 then s + 1000 * 7 / 10
    else s) s5
  let center : Int := (N / 2 : Nat)
  let dist : Int := |(m.1 : Int) - center| + |(m.2 : Int) - center|
  let centrality : Int := max 0 (10 - dist) * 10
  s6 + centrality

/-- `GomokuEngine._evaluate_move` with the random draw passed in as `j`
(the source adds `np.random.random() * 0.1`); the float score is modelled
exactly as a rational. -/
def evaluateMove (N : Nat) (b : Board) (m : Nat × Nat) (p : Nat) (j : ℚ) : ℚ :=
  if makesFiveAt N b m p then (100000 : ℚ)
  else (evalStages N b m p : ℚ) + j * (1/10 : ℚ)

/-- The scanning loop of Python `max(items, key=...)`: keep the current
best, replace only on a strictly greater key, so the first maximum wins. -/
def argmaxGo (f : Nat × Nat → ℚ) (best : Nat × Nat) (bs : ℚ) :
    List (Nat × Nat) → Nat × Nat
  | [] => best
  | y :: ys => if bs < f y then argmaxGo f y (f y) ys else argmaxGo f best bs ys

/-- `max(move_scores.items(), key=lambda x: x[1])[0]` over the moves in
insertion order (`none` on an empty list, where Python raises). -/
def argmaxFirst (f : Nat × Nat → ℚ) : List (Nat × Nat) → Option (Nat × Nat)
  | [] => none
  | x :: xs => some (argmaxGo f x (f x) xs)

/-- `GomokuEngine.get_best_move`, with the per-move random draws passed in
as `j`.  Returns `none` exactly where the Python code would raise (the
`max` of an empty candidate dictionary). -/
def getBestMove (N : Nat) (b : Board) (p : Nat) (j : Nat × Nat → ℚ) :
    Option (Nat × Nat) :=
  match bookLookup (boardToString b) with
  | some mv => some mv
  | none =>
    if stoneCount b = 0 then some (N / 2, N / 2)
    else
      match checkImmediateThreats N b p with
      | some m => some m
      | none =>
        let vm := getValidMoves N b
        if vm.length = 1 then vm.head?
        else argmaxFirst (fun m => evaluateMove N b m p (j m)) vm

/-- The claim-C4 hypothesis, decidably: the player has four stones in a row
along some axis with an in-bounds empty extension cell at one end. -/
def hasFourWithExtension (N : Nat) (b : Board) (p : Nat) : Bool :=
  (List.range N).any (fun r => (List.range N).any (fun c => axes.any (fun d =>
    ((List.range 4).all (fun i =>
        decide (inBounds N ((r : Int) + i * d.1) ((c : Int) + i * d.2)) &&
        decide (cellAt b ((r : Int) + i * d.1) ((c : Int) + i * d.2) = p))) &&
    (decide (openEndAt N b ((r : Int) - d.1) ((c : Int) - d.2)) ||
     decide (openEndAt N b ((r : Int) + 4 * d.1) ((c : Int) + 4 * d.2))))))

/-- The all-zero 3x3 board. -/
def zeros3 : Board := [[0, 0, 0], [0, 0, 0], [0, 0, 0]]

/-- A 3x3 board with a single black stone at the centre. -/
def oneStone3 : Board := [[0, 0, 0], [0, 1, 0], [0, 0, 0]]

/-- A zero random draw for every move. -/
def zeroJitter : Nat × Nat → ℚ := fun _ => 0

/-- A store of board arrays addressed by index: writing cell `(r, c)` of
the array at address `i` (numpy item assignment through a reference). -/
def writeStore (st : List Board) (i : Nat) (r c v : Nat) : List Board :=
  st.set i (placeAt (st.getD i []) r c v)

/-- `_evaluate_move` with the reference semantics made explicit: the
caller's array sits in the store (at address 0), `board.copy()` allocates
a fresh array at a fresh address, and every assignment the source makes
(`test_board[row, col] = ...`) is a store write at that fresh address; all
reads of the line checkers go through the store.  Returns the score and
the final store. -/
def evaluateMoveSt (N : Nat) (st : List Board) (m : Nat × Nat) (p : Nat)
    (j : ℚ) : ℚ × List Board :=
  let opp := 3 - p
  let tRef := st.length
  let st1 := st ++ [st.getD 0 []]
  let st2 := writeStore st1 tRef m.1 m.2 p
  if axes.any (fun d => checkLine N (st2.getD tRef []) m.1 m.2 d.1 d.2 p 5) then
    ((100000 : ℚ), st2)
  else
    let st3 := writeStore st2 tRef m.1 m.2 opp
    let s1 := axes.foldl (fun s d =>
      if checkLine N (st3.getD tRef []) m.1 m.2 d.1 d.2 opp 5 then
        s + 100000 * 9 / 10 else s) (0 : Int)
    let st4 := writeStore st3 tRef m.1 m.2 p
    let s2 := axes.foldl (fun s d =>
      if checkOpenLine N (st4.getD tRef []) m.1 m.2 d.1 d.2 p 4 then s + 10000
      else if checkLine N (st4.getD tRef []) m.1 m.2 d.1 d.2 p 4 then s + 5000
      else s) s1
    let s3 := axes.foldl (fun s d =>
      if checkOpenLine N (st4.getD tRef []) m.1 m.2 d.1 d.2 p 3 then s + 1000
      else if checkLine N (st4.getD tRef []) m.1 m.2 d.1 d.2 p 3 then s + 500
      else s) s2
    let s4 := axes.foldl (fun s d =>
      if checkOpenLine N (st4.getD tRef []) m.1 m.2 d.1 d.2 p 2 then s + 100
      else if checkLine N (st4.getD tRef []) m.1 m.2 d.1 d.2 p 2 then s + 50
      else s) s3
    let st5 := writeStore st4 tRef m.1 m.2 opp
    let s5 := axes.foldl (fun s d =>
      if checkOpenLine N (st5.getD tRef []) m.1 m.2 d.1 d.2 opp 4 then
        s + 10000 * 8 / 10
      else if checkLine N (st5.getD tRef []) m.1 m.2 d.1 d.2 opp 4 then
        s + 5000 * 8 / 10
      else s) s4
    let s6 := axes.foldl (fun s d =>
      if checkOpenLine N (st5.getD tRef []) m.1 m.2 d.1 d.2 opp 3 then
        s + 1000 * 7 / 10
      else s) s5
    let center : Int := (N / 2 : Nat)
    let dist : Int := |(m.1 : Int) - center| + |(m.2 : Int) - center|
    let centrality : Int := max 0 (10 - dist) * 10
    (((s6 + centrality : Int) : ℚ) + j * (1/10 : ℚ), st5)

/-- A 10x10 board: black four in row 0; white fours in row 5 and column 4,
both extendable to five through cell (5,4). -/
def boardC5 : Board :=
  [[1, 1, 1, 1, 0, 0, 0, 0, 0, 0],
   [0, 0, 0, 0, 0, 0, 0, 0, 0, 0],
   [0, 0, 0, 0, 0, 0, 0, 0, 0, 0],
   [0, 0, 0, 0, 0, 0, 0, 0, 0, 0],
   [0, 0, 0, 0, 0, 0, 0, 0, 0, 0],
   [2, 2, 2, 2, 0, 0, 0, 0, 0, 0],
   [0, 0, 0, 0, 2, 0, 0, 0, 0, 0],
   [0, 0, 0, 0, 2, 0, 0, 0, 0, 0],
   [0, 0, 0, 0, 2, 0, 0, 0, 0, 0],
   [0, 0, 0, 0, 2, 0, 0, 0, 0, 0]]

/-- A 7x7 board with a black four in a row and open extension cells. -/
def boardC4 : Board :=
  [[0, 0, 0, 0, 0, 0, 0], [0, 1, 1, 1, 1, 0, 0], [0, 0, 0, 0, 0, 0, 0],
   [0, 0, 0, 0, 0, 0, 0], [0, 0, 0, 0, 0, 0, 0], [0, 0, 0, 0, 0, 0, 0],
   [0, 0, 0, 0, 0, 0, 0]]


end Gomoku

namespace Gomoku

/-! ### Lemmas about the line-checking utilities -/

lemma cnt_le (N : Nat) (b : Board) (r c dr dc : Int) (p : Nat) :
    ∀ fuel, cnt N b r c dr dc p fuel ≤ fuel := by
  intro fuel
  induction fuel generalizing r c with
  | zero => simp [cnt]
  | succ f ih =>
    simp only [cnt]
    split
    · exact Nat.succ_le_succ (ih _ _)
    · exact Nat.zero_le _

/-- Raising the fuel of the counting loop only caps the result: counting
with budget `f ≤ g` returns the budget-`g` count clamped at `f`. -/
lemma cnt_cap (N : Nat) (b : Board) (p : Nat) :
    ∀ f g (r c dr dc : Int), f ≤ g →
      cnt N b r c dr dc p f = min (cnt N b r c dr dc p g) f := by
  intro f
  induction f with
  | zero => intro g r c dr dc h; simp [cnt]
  | succ f ih =>
    intro g r c dr dc hfg
    match g, hfg with
    | g + 1, hfg =>
      simp only [cnt]
      split
      · rw [ih g (r + dr) (c + dc) dr dc (by omega)]
        omega
      · simp

/-- When the origin cell itself holds the player's stone, the combined
two-direction count of `_check_line` is symmetric under negating the
direction. -/
lemma checkLine_symm (N : Nat) (b : Board) (row col dr dc : Int) (p : Nat)
    (len : Nat) (h : inBounds N row col ∧ cellAt b row col = p) :
    checkLine N b row col dr dc p len = checkLine N b row col (-dr) (-dc) p len := by
  cases len with
  | zero => simp [checkLine]
  | succ k =>
    have hA := cnt_le N b (row + dr) (col + dc) dr dc p k
    have hB := cnt_le N b (row - dr) (col - dc) (-dr) (-dc) p k
    simp only [checkLine, cnt, if_pos h, neg_neg]
    rw [show row - -dr = row + dr by ring, show col - -dc = col + dc by ring,
       show row + -dr = row - dr by ring, show col + -dc = col - dc by ring]
    rw [show k + 1 - (cnt N b (row + dr) (col + dc) dr dc p k + 1)
          = k - cnt N b (row + dr) (col + dc) dr dc p k by omega]
    rw [show k + 1 - (cnt N b (row - dr) (col - dc) (-dr) (-dc) p k + 1)
          = k - cnt N b (row - dr) (col - dc) (-dr) (-dc) p k by omega]
    rw [cnt_cap N b p (k - cnt N b (row + dr) (col + dc) dr dc p k) k
          (row - dr) (col - dc) (-dr) (-dc) (by omega),
        cnt_cap N b p (k - cnt N b (row - dr) (col - dc) (-dr) (-dc) p k) k
          (row + dr) (col + dc) dr dc (by omega)]
    apply decide_eq_decide.mpr
    omega

lemma stepN_eq (dr dc : Int) :
    ∀ (n : Nat) (r c : Int), stepN r c dr dc n = (r + n * dr, c + n * dc) := by
  intro n
  induction n with
  | zero => intro r c; simp [stepN]
  | succ m ih =>
    intro r c
    simp only [stepN, ih]
    rw [Prod.mk.injEq]
    refine ⟨by push_cast; ring, by push_cast; ring⟩

/-- `_check_open_line` in closed form: the line check, and one of the two
cells at offset exactly `±length` steps from the origin is in-bounds and
empty. -/
lemma checkOpenLine_closed_form (N : Nat) (b : Board) (row col dr dc : Int)
    (p len : Nat) :
    checkOpenLine N b row col dr dc p len =
      (checkLine N b row col dr dc p len &&
        (decide (openEndAt N b (row + (len : Int) * dr) (col + (len : Int) * dc)) ||
         decide (openEndAt N b (row - (len : Int) * dr) (col - (len : Int) * dc)))) := by
  unfold checkOpenLine
  rw [stepN_eq, stepN_eq]
  cases h : checkLine N b row col dr dc p len
  · simp
  · simp only [if_pos rfl, Bool.true_and]
    rw [show row + (len : Int) * -dr = row - len * dr by ring,
        show col + (len : Int) * -dc = col - len * dc by ring]
    simp [openEndAt]

/-- When the origin cell holds the player's stone, `_check_open_line` is
symmetric under direction negation. -/
lemma checkOpenLine_symm (N : Nat) (b : Board) (row col dr dc : Int)
    (p len : Nat) (h : inBounds N row col ∧ cellAt b row col = p) :
    checkOpenLine N b row col dr dc p len =
      checkOpenLine N b row col (-dr) (-dc) p len := by
  rw [checkOpenLine_closed_form, checkOpenLine_closed_form,
      ← checkLine_symm N b row col dr dc p len h]
  rw [show row + (len : Int) * -dr = row - len * dr by ring,
      show col + (len : Int) * -dc = col - len * dc by ring,
      show row - (len : Int) * -dr = row + len * dr by ring,
      show col - (len : Int) * -dc = col + len * dc by ring]
  cases checkLine N b row col dr dc p len
  · simp
  · simp [Bool.or_comm]

/-! ### Lemmas about the board-string encoding and the opening book -/

lemma parseNat_append_digit (l : List Char) (d : Char) :
    parseNat (l ++ [d]) = 10 * parseNat l + (d.toNat - 48) := by
  unfold parseNat
  rw [List.foldl_append]
  rfl

lemma toNat_ofNat_digit (k : Nat) (h : k < 10) :
    (Char.ofNat (48 + k)).toNat = 48 + k := by
  interval_cases k <;> decide

lemma natCharsA_digits :
    ∀ fuel n ch, ch ∈ natCharsA fuel n → 48 ≤ ch.toNat ∧ ch.toNat ≤ 57 := by
  intro fuel
  induction fuel with
  | zero => intro n ch h; simp [natCharsA] at h
  | succ f ih =>
    intro n ch h
    simp only [natCharsA] at h
    split at h
    · simp at h
      subst h
      rw [toNat_ofNat_digit n (by omega)]
      omega
    · rw [List.mem_append] at h
      rcases h with h | h
      · exact ih _ _ h
      · simp at h
        subst h
        rw [toNat_ofNat_digit (n % 10) (by omega)]
        omega

lemma parseNat_natCharsA :
    ∀ fuel n, n < fuel → parseNat (natCharsA fuel n) = n := by
  intro fuel
  induction fuel with
  | zero => omega
  | succ f ih =>
    intro n hn
    simp only [natCharsA]
    split
    · show parseNat [Char.ofNat (48 + n)] = n
      unfold parseNat
      simp [List.foldl, toNat_ofNat_digit n (by omega)]
    · rw [parseNat_append_digit, ih (n / 10) (by omega),
          toNat_ofNat_digit (n % 10) (by omega)]
      omega

lemma parseNat_natChars (n : Nat) : parseNat (natChars n) = n :=
  parseNat_natCharsA (n + 1) n (by omega)

lemma natChars_inj {m n : Nat} (h : natChars m = natChars n) : m = n := by
  have := parseNat_natChars m
  rw [h, parseNat_natChars] at this
  omega

lemma natChars_digits (n : Nat) (ch : Char) (h : ch ∈ natChars n) :
    48 ≤ ch.toNat ∧ ch.toNat ≤ 57 :=
  natCharsA_digits (n + 1) n ch h

lemma natChars_ne_nil (n : Nat) : natChars n ≠ [] := by
  unfold natChars natCharsA
  split
  · simp
  · simp

lemma comma_not_mem_natChars (n : Nat) : ',' ∉ natChars n := by
  intro h
  have := natChars_digits n ',' h
  revert this
  decide

lemma underscore_not_mem_natChars (n : Nat) : '_' ∉ natChars n := by
  intro h
  have := natChars_digits n '_' h
  revert this
  decide

lemma append_sep_inj (sep : Char) :
    ∀ (a a' b b' : List Char), sep ∉ a → sep ∉ a' →
      a ++ sep :: b = a' ++ sep :: b' → a = a' ∧ b = b' := by
  intro a
  induction a with
  | nil =>
    intro a' b b' _ ha' h
    cases a' with
    | nil => simpa using h
    | cons y ys =>
      simp only [List.nil_append, List.cons_append, List.cons.injEq] at h
      exact absurd (h.1 ▸ List.mem_cons_self y ys) ha'
  | cons x xs ih =>
    intro a' b b' ha ha' h
    cases a' with
    | nil =>
      simp only [List.cons_append, List.nil_append, List.cons.injEq] at h
      exact absurd (h.1.symm ▸ List.mem_cons_self x xs) ha
    | cons y ys =>
      simp only [List.cons_append, List.cons.injEq] at h
      obtain ⟨rfl, h2⟩ := h
      have := ih ys b b' (fun hm => ha (List.mem_cons_of_mem _ hm))
        (fun hm => ha' (List.mem_cons_of_mem _ hm)) h2
      exact ⟨by rw [this.1], this.2⟩

lemma tagB_inj {r c r' c' : Nat} (h : tagB r c = tagB r' c') :
    r = r' ∧ c = c' := by
  unfold tagB at h
  simp only [List.cons.injEq, true_and] at h
  have := append_sep_inj ',' (natChars r) (natChars r') (natChars c) (natChars c')
    (comma_not_mem_natChars r) (comma_not_mem_natChars r') h
  exact ⟨natChars_inj this.1, natChars_inj this.2⟩

lemma tagW_inj {r c r' c' : Nat} (h : tagW r c = tagW r' c') :
    r = r' ∧ c = c' := by
  unfold tagW at h
  simp only [List.cons.injEq, true_and] at h
  have := append_sep_inj ',' (natChars r) (natChars r') (natChars c) (natChars c')
    (comma_not_mem_natChars r) (comma_not_mem_natChars r') h
  exact ⟨natChars_inj this.1, natChars_inj this.2⟩

lemma tagB_ne_tagW (r c r' c' : Nat) : tagB r c ≠ tagW r' c' := by
  unfold tagB tagW
  intro h
  simp only [List.cons.injEq] at h
  exact absurd h.1 (by decide)

lemma underscore_not_mem_tagB (r c : Nat) : '_' ∉ tagB r c := by
  unfold tagB
  intro h
  rcases List.mem_cons.mp h with h | h
  · revert h; decide
  · rcases List.mem_append.mp h with h | h
    · exact underscore_not_mem_natChars r h
    · rcases List.mem_cons.mp h with h | h
      · revert h; decide
      · exact underscore_not_mem_natChars c h

lemma underscore_not_mem_tagW (r c : Nat) : '_' ∉ tagW r c := by
  unfold tagW
  intro h
  rcases List.mem_cons.mp h with h | h
  · revert h; decide
  · rcases List.mem_append.mp h with h | h
    · exact underscore_not_mem_natChars r h
    · rcases List.mem_cons.mp h with h | h
      · revert h; decide
      · exact underscore_not_mem_natChars c h

lemma four_le_tagB_length (r c : Nat) : 4 ≤ (tagB r c).length := by
  unfold tagB
  have h1 := natChars_ne_nil r
  have h2 := natChars_ne_nil c
  simp only [List.length_cons, List.length_append]
  have : 1 ≤ (natChars r).length := List.length_pos.mpr h1
  have : 1 ≤ (natChars c).length := List.length_pos.mpr h2
  omega

lemma four_le_tagW_length (r c : Nat) : 4 ≤ (tagW r c).length := by
  unfold tagW
  have h1 := natChars_ne_nil r
  have h2 := natChars_ne_nil c
  have : 1 ≤ (natChars r).length := List.length_pos.mpr h1
  have : 1 ≤ (natChars c).length := List.length_pos.mpr h2
  simp only [List.length_cons, List.length_append]
  omega

lemma tags_shape (b : Board) (t : List Char) (h : t ∈ tags b) :
    (∃ rc, rc ∈ wherePositions b 1 ∧ t = tagB rc.1 rc.2) ∨
    (∃ rc, rc ∈ wherePositions b 2 ∧ t = tagW rc.1 rc.2) := by
  unfold tags at h
  rcases List.mem_append.mp h with h | h
  · left
    obtain ⟨rc, hrc, ht⟩ := List.mem_map.mp h
    exact ⟨rc, hrc, ht.symm⟩
  · right
    obtain ⟨rc, hrc, ht⟩ := List.mem_map.mp h
    exact ⟨rc, hrc, ht.symm⟩

lemma tag_facts (b : Board) (t : List Char) (h : t ∈ tags b) :
    t ≠ [] ∧ 4 ≤ t.length ∧ '_' ∉ t := by
  rcases tags_shape b t h with ⟨rc, _, rfl⟩ | ⟨rc, _, rfl⟩
  · exact ⟨by simp [tagB], four_le_tagB_length _ _, underscore_not_mem_tagB _ _⟩
  · exact ⟨by simp [tagW], four_le_tagW_length _ _, underscore_not_mem_tagW _ _⟩

lemma joinU_two (t1 t2 : List Char) : joinU [t1, t2] = t1 ++ '_' :: t2 := by
  rfl

lemma joinU_length (l : List (List Char)) (h4 : ∀ t ∈ l, 4 ≤ t.length) :
    5 * l.length ≤ (joinU l).length + 1 := by
  induction l with
  | nil => simp [joinU]
  | cons t ts ih =>
    cases ts with
    | nil =>
      have := h4 t (by simp)
      simp only [joinU, List.length_cons, List.length_nil]
      omega
    | cons u us =>
      have ht := h4 t (by simp)
      have ihh := ih (fun x hx => h4 x (List.mem_cons_of_mem _ hx))
      show 5 * (t :: u :: us).length ≤ (t ++ '_' :: joinU (u :: us)).length + 1
      simp only [List.length_cons, List.length_append] at *
      omega

lemma perm_pair {α : Type} {l : List α} {x y : α} (h : l.Perm [x, y]) :
    l = [x, y] ∨ l = [y, x] := by
  have hl : l.length = 2 := by simpa using h.length_eq
  obtain ⟨a, b, rfl⟩ := List.length_eq_two.mp hl
  have ha : a ∈ [x, y] := h.mem_iff.mp (by simp)
  by_cases h1 : a = x
  · subst h1
    left
    rw [List.singleton_perm_singleton.mp h.cons_inv]
  · have h2 : a = y := by
      rcases List.mem_cons.mp ha with h2 | h2
      · exact absurd h2 h1
      · simpa using h2
    subst h2
    right
    have h3 : ([a, b] : List α).Perm [a, x] := h.trans (List.Perm.swap a x [])
    rw [List.singleton_perm_singleton.mp h3.cons_inv]

lemma sortedTags_perm (b : Board) : (sortedTags b).Perm (tags b) :=
  List.perm_insertionSort lexLeR (tags b)

/-- An empty board string forces both stone lists to be empty. -/
lemma enc_eq_nil (b : Board) (h : boardToString b = []) :
    wherePositions b 1 = [] ∧ wherePositions b 2 = [] := by
  unfold boardToString at h
  have hperm := sortedTags_perm b
  cases hS : sortedTags b with
  | nil =>
    rw [hS] at hperm
    have ht : tags b = [] := (List.perm_nil.mp hperm.symm)
    unfold tags at ht
    rw [List.append_eq_nil] at ht
    exact ⟨List.map_eq_nil_iff.mp ht.1, List.map_eq_nil_iff.mp ht.2⟩
  | cons t ts =>
    cases ts with
    | nil =>
      rw [hS] at h hperm
      have : t ∈ tags b := hperm.mem_iff.mp (by simp)
      exact absurd (by simpa [joinU] using h) (tag_facts b t this).1
    | cons u us =>
      rw [hS] at h
      simp [joinU] at h

/-- A board whose string is a two-stone key `B7,7_W{wr},{wc}` has exactly
the black stone (7,7) and the white stone (wr,wc). -/
lemma two_stone (b : Board) (wr wc : Nat) (hlen : (tagW wr wc).length = 4)
    (h : boardToString b = tagB 7 7 ++ '_' :: tagW wr wc) :
    wherePositions b 1 = [(7, 7)] ∧ wherePositions b 2 = [(wr, wc)] := by
  unfold boardToString at h
  have hperm := sortedTags_perm b
  cases hS : sortedTags b with
  | nil =>
    rw [hS] at h
    simp [joinU] at h
  | cons t1 ts =>
    cases ts with
    | nil =>
      rw [hS] at h hperm
      have ht : t1 ∈ tags b := hperm.mem_iff.mp (by simp)
      have hu : '_' ∉ t1 := (tag_facts b t1 ht).2.2
      rw [show joinU [t1] = t1 from rfl] at h
      exact absurd (h ▸ (by simp : '_' ∈ tagB 7 7 ++ '_' :: tagW wr wc)) hu
    | cons t2 ts2 =>
      cases ts2 with
      | cons t3 ts3 =>
        exfalso
        rw [hS] at h hperm
        have h4 : ∀ t ∈ (t1 :: t2 :: t3 :: ts3), 4 ≤ t.length := fun t htm =>
          (tag_facts b t (hperm.mem_iff.mp htm)).2.1
        have hjl := joinU_length _ h4
        have hkey : (tagB 7 7 ++ '_' :: tagW wr wc).length = 9 := by
          simp only [List.length_append, List.length_cons, hlen]
          decide
        rw [h, hkey] at hjl
        simp only [List.length_cons] at hjl
        omega
      | nil =>
        rw [hS] at h hperm
        rw [joinU_two] at h
        have ht1 : t1 ∈ tags b := hperm.mem_iff.mp (by simp)
        obtain ⟨rfl, rfl⟩ := append_sep_inj '_' t1 (tagB 7 7) t2 (tagW wr wc)
          ((tag_facts b t1 ht1).2.2) (underscore_not_mem_tagB 7 7) h
        have htg := perm_pair hperm.symm
        have hlen12 : (wherePositions b 1).length + (wherePositions b 2).length = 2 := by
          have hl : (tags b).length = 2 := by
            rcases htg with he | he
            · rw [he]; rfl
            · rw [he]; rfl
          unfold tags at hl
          simpa using hl
        have hsplit : (wherePositions b 1).length = 0 ∧ (wherePositions b 2).length = 2 ∨
            (wherePositions b 1).length = 1 ∧ (wherePositions b 2).length = 1 ∨
            (wherePositions b 1).length = 2 ∧ (wherePositions b 2).length = 0 := by
          omega
        rcases hsplit with ⟨h1, h2⟩ | ⟨h1, h2⟩ | ⟨h1, h2⟩
        · exfalso
          rw [List.length_eq_zero] at h1
          obtain ⟨c, d, h2⟩ := List.length_eq_two.mp h2
          unfold tags at htg
          rw [h1, h2] at htg
          simp only [List.map_nil, List.map_cons, List.nil_append] at htg
          rcases htg with he | he
          · simp only [List.cons.injEq] at he
            exact tagB_ne_tagW 7 7 c.1 c.2 he.1.symm
          · simp only [List.cons.injEq] at he
            exact tagB_ne_tagW 7 7 d.1 d.2 he.2.1.symm
        · obtain ⟨a, h1⟩ := List.length_eq_one.mp h1
          obtain ⟨c, h2⟩ := List.length_eq_one.mp h2
          unfold tags at htg
          rw [h1, h2] at htg
          simp only [List.map_cons, List.map_nil, List.singleton_append] at htg
          rcases htg with he | he
          · simp only [List.cons.injEq, and_true] at he
            obtain ⟨ha1, ha2⟩ := tagB_inj he.1
            obtain ⟨hc1, hc2⟩ := tagW_inj he.2
            refine ⟨?_, ?_⟩
            · rw [h1]
              rw [show a = (7, 7) from Prod.ext ha1 ha2]
            · rw [h2]
              rw [show c = (wr, wc) from Prod.ext hc1 hc2]
          · exfalso
            simp only [List.cons.injEq, and_true] at he
            exact tagB_ne_tagW a.1 a.2 wr wc he.1
        · exfalso
          obtain ⟨a, d, h1⟩ := List.length_eq_two.mp h1
          rw [List.length_eq_zero] at h2
          unfold tags at htg
          rw [h1, h2] at htg
          simp only [List.map_cons, List.map_nil, List.append_nil] at htg
          rcases htg with he | he
          · simp only [List.cons.injEq] at he
            exact tagB_ne_tagW d.1 d.2 wr wc he.2.1
          · simp only [List.cons.injEq] at he
            exact tagB_ne_tagW a.1 a.2 wr wc he.1

/-- The opening book keys, computed. -/
lemma bookKeys_explicit : bookKeys = [[],
    ['B', '7', ',', '7', '_', 'W', '7', ',', '8'],
    ['B', '7', ',', '7', '_', 'W', '8', ',', '7'],
    ['B', '7', ',', '7', '_', 'W', '8', ',', '8'],
    ['B', '7', ',', '7', '_', 'W', '8', ',', '6'],
    ['B', '7', ',', '7', '_', 'W', '7', ',', '9'],
    ['B', '7', ',', '7', '_', 'W', '9', ',', '7'],
    ['B', '7', ',', '7', '_', 'W', '9', ',', '9'],
    ['B', '7', ',', '7', '_', 'W', '9', ',', '5']] := by decide

lemma cellNat_eq (b : Board) (r c : Nat) :
    cellNat b (r, c) = (b.getD r []).getD c 0 := rfl

lemma wp_eq_filter (b : Board) (v : Nat) (hv : v ≠ 0) (R C : Nat)
    (hR : b.length ≤ R) (hC : ∀ r, (b.getD r []).length ≤ C) :
    wherePositions b v =
      (pairEnum R C).filter (fun rc => decide (cellNat b rc = v)) := by
  unfold pairEnum wherePositions
  rw [List.filter_flatMap]
  obtain ⟨K, rfl⟩ : ∃ K, R = b.length + K := ⟨R - b.length, by omega⟩
  rw [List.range_add, List.flatMap_append]
  have hzero : ∀ x ∈ (List.range K).map (fun x => b.length + x),
      (List.filter (fun rc => decide (cellNat b rc = v))
        ((List.range C).map (fun c => (x, c)))) = [] := by
    intro x hx
    obtain ⟨y, _, rfl⟩ := List.mem_map.mp hx
    rw [List.filter_eq_nil_iff]
    intro rc hrc
    obtain ⟨c, _, rfl⟩ := List.mem_map.mp hrc
    simp only [decide_eq_true_eq, cellNat_eq]
    rw [List.getD_eq_default b [] (by omega)]
    simp [Ne.symm hv]
  rw [List.flatMap_eq_nil_iff.mpr hzero, List.append_nil]
  apply List.flatMap_congr
  intro r hr
  rw [List.mem_range] at hr
  rw [List.filter_map]
  congr 1
  simp only [Function.comp_def, cellNat_eq]
  obtain ⟨M, hM⟩ : ∃ M, C = (b.getD r []).length + M :=
    ⟨C - (b.getD r []).length, by have := hC r; omega⟩
  rw [hM, List.range_add, List.filter_append]
  have h2 : List.filter (fun c => decide ((b.getD r []).getD c 0 = v))
      ((List.range M).map (fun x => (b.getD r []).length + x)) = [] := by
    rw [List.filter_eq_nil_iff]
    intro c hc
    obtain ⟨y, _, rfl⟩ := List.mem_map.mp hc
    simp only [decide_eq_true_eq]
    rw [List.getD_eq_default _ _ (by omega)]
    simp [Ne.symm hv]
  rw [h2, List.append_nil]

lemma le_foldr_max (l : List Nat) (x : Nat) (h : x ∈ l) : x ≤ l.foldr max 0 := by
  induction l with
  | nil => simp at h
  | cons a as ih =>
    rcases List.mem_cons.mp h with rfl | h
    · exact le_max_left _ _
    · exact le_trans (ih h) (le_max_right _ _)

lemma getD_len_le_maxRowLen (b : Board) (r : Nat) :
    (b.getD r []).length ≤ maxRowLen b := by
  rcases Nat.lt_or_ge r b.length with h | h
  · apply le_foldr_max
    rw [List.mem_map]
    refine ⟨b.getD r [], ?_, rfl⟩
    rw [List.getD_eq_getElem b [] h]
    exact List.getElem_mem h
  · rw [List.getD_eq_default _ _ h]
    simp

/-- Two boards (of possibly different sizes) with the same cells holding a
nonzero value `v` have identical `np.where`-style position lists for `v`. -/
lemma wp_eq_of_same (b b' : Board) (v : Nat) (hv : v ≠ 0)
    (h : ∀ rc : Nat × Nat, cellNat b rc = v ↔ cellNat b' rc = v) :
    wherePositions b v = wherePositions b' v := by
  rw [wp_eq_filter b v hv (max b.length b'.length)
        (max (maxRowLen b) (maxRowLen b'))
        (le_max_left _ _)
        (fun r => le_trans (getD_len_le_maxRowLen b r) (le_max_left _ _)),
      wp_eq_filter b' v hv (max b.length b'.length)
        (max (maxRowLen b) (maxRowLen b'))
        (le_max_right _ _)
        (fun r => le_trans (getD_len_le_maxRowLen b' r) (le_max_right _ _))]
  apply List.filter_congr
  intro rc _
  simp [h rc]

/-- `_board_to_string` is a function of the stone position lists alone. -/
lemma boardToString_congr (b b' : Board)
    (h1 : wherePositions b 1 = wherePositions b' 1)
    (h2 : wherePositions b 2 = wherePositions b' 2) :
    boardToString b = boardToString b' := by
  unfold boardToString sortedTags tags
  rw [h1, h2]

lemma getD_replicate {α : Type} (x d : α) :
    ∀ (R n : Nat), (List.replicate R x).getD n d = if n < R then x else d := by
  intro R
  induction R with
  | zero => intro n; simp [List.getD]
  | succ R ih =>
    intro n
    cases n with
    | zero => simp [List.replicate]
    | succ m =>
      simp only [List.replicate, List.getD_cons_succ, ih m]
      simp [Nat.succ_lt_succ_iff]


lemma cellNat_allZero (R C : Nat) (rc : Nat × Nat) :
    cellNat (List.replicate R (List.replicate C 0)) rc = 0 := by
  obtain ⟨r, c⟩ := rc
  rw [cellNat_eq, getD_replicate]
  split
  · rw [getD_replicate]
    split <;> rfl
  · rfl

/-- Claim C10: `_board_to_string` depends only on the sets of
black-occupied and white-occupied coordinates, not on the board's
dimensions. -/
theorem claim_C10 (b b' : Board)
    (h1 : ∀ rc : Nat × Nat, cellNat b rc = 1 ↔ cellNat b' rc = 1)
    (h2 : ∀ rc : Nat × Nat, cellNat b rc = 2 ↔ cellNat b' rc = 2) :
    boardToString b = boardToString b' :=
  boardToString_congr b b'
    (wp_eq_of_same b b' 1 one_ne_zero h1)
    (wp_eq_of_same b b' 2 two_ne_zero h2)

/-- Witness for claim C10: a 1x1 empty board and a 3x3 empty board have
equal stone sets and receive the same (empty) board string. -/
theorem claim_C10_witness :
    (∀ rc : Nat × Nat,
       cellNat (List.replicate 1 (List.replicate 1 0)) rc = 1 ↔
       cellNat (List.replicate 3 (List.replicate 3 0)) rc = 1) ∧
    (∀ rc : Nat × Nat,
       cellNat (List.replicate 1 (List.replicate 1 0)) rc = 2 ↔
       cellNat (List.replicate 3 (List.replicate 3 0)) rc = 2) ∧
    boardToString (List.replicate 1 (List.replicate 1 0)) =
      boardToString (List.replicate 3 (List.replicate 3 0)) := by
  have h1 : ∀ rc : Nat × Nat,
      cellNat (List.replicate 1 (List.replicate 1 0)) rc = 1 ↔
      cellNat (List.replicate 3 (List.replicate 3 0)) rc = 1 := by
    intro rc
    rw [cellNat_allZero, cellNat_allZero]
  have h2 : ∀ rc : Nat × Nat,
      cellNat (List.replicate 1 (List.replicate 1 0)) rc = 2 ↔
      cellNat (List.replicate 3 (List.replicate 3 0)) rc = 2 := by
    intro rc
    rw [cellNat_allZero, cellNat_allZero]
  exact ⟨h1, h2, claim_C10 _ _ h1 h2⟩

/-- Claim C2 is refuted at a concrete input: the empty board of side 3
(side not 15) has a string encoding that IS a key of the opening book
(the empty string), so the opening-book lookup hits. -/
theorem claim_C2_counterexample :
    ([[0, 0, 0], [0, 0, 0], [0, 0, 0]] : Board).length = 3 ∧ (3 : Nat) ≠ 15 ∧
    boardToString [[0, 0, 0], [0, 0, 0], [0, 0, 0]] ∈ bookKeys := by decide

/-- Claim C2, amended: for a board of any side (15 or not), the
opening-book lookup hits exactly when the board's stones are one of the
nine book configurations: no stones at all, or a single black stone at
(7,7) together with a single white stone at one of the eight book reply
positions.  In particular, on sides other than 15 a lookup can hit (every
empty board does), and otherwise misses. -/
theorem claim_C2_amended (b : Board) :
    boardToString b ∈ bookKeys ↔
      (wherePositions b 1, wherePositions b 2) ∈ bookConfigs := by
  constructor
  · intro h
    rw [bookKeys_explicit] at h
    simp only [List.mem_cons, List.not_mem_nil, or_false] at h
    rcases h with h | h | h | h | h | h | h | h | h
    · obtain ⟨h1, h2⟩ := enc_eq_nil b h
      simp [bookConfigs, h1, h2]
    · obtain ⟨h1, h2⟩ := two_stone b 7 8 (by decide) (h.trans (by decide))
      simp [bookConfigs, h1, h2]
    · obtain ⟨h1, h2⟩ := two_stone b 8 7 (by decide) (h.trans (by decide))
      simp [bookConfigs, h1, h2]
    · obtain ⟨h1, h2⟩ := two_stone b 8 8 (by decide) (h.trans (by decide))
      simp [bookConfigs, h1, h2]
    · obtain ⟨h1, h2⟩ := two_stone b 8 6 (by decide) (h.trans (by decide))
      simp [bookConfigs, h1, h2]
    · obtain ⟨h1, h2⟩ := two_stone b 7 9 (by decide) (h.trans (by decide))
      simp [bookConfigs, h1, h2]
    · obtain ⟨h1, h2⟩ := two_stone b 9 7 (by decide) (h.trans (by decide))
      simp [bookConfigs, h1, h2]
    · obtain ⟨h1, h2⟩ := two_stone b 9 9 (by decide) (h.trans (by decide))
      simp [bookConfigs, h1, h2]
    · obtain ⟨h1, h2⟩ := two_stone b 9 5 (by decide) (h.trans (by decide))
      simp [bookConfigs, h1, h2]
  · intro h
    simp only [bookConfigs, List.mem_cons, List.not_mem_nil, or_false,
      Prod.mk.injEq] at h
    rcases h with ⟨h1, h2⟩ | ⟨h1, h2⟩ | ⟨h1, h2⟩ | ⟨h1, h2⟩ | ⟨h1, h2⟩ |
      ⟨h1, h2⟩ | ⟨h1, h2⟩ | ⟨h1, h2⟩ | ⟨h1, h2⟩ <;>
    · simp only [boardToString, sortedTags, tags]
      rw [h1, h2]
      decide

/-- Claim C6 is refuted at a concrete input: from origin (0,2) in direction
(0,1) with length 3, the combined run check holds and the cell one step past
the forward end of the found run, (0,3), is in-bounds and empty, yet
`_check_open_line` returns false, because it inspects the cells at offsets
exactly ±3 from the origin, which are (0,5) and (0,-1), both out of bounds. -/
theorem claim_C6_counterexample :
    checkLine 5 boardC6 0 2 0 1 1 3 = true ∧
    runEndsOpen 5 boardC6 0 2 0 1 1 3 ∧
    checkOpenLine 5 boardC6 0 2 0 1 1 3 = false := by decide

/-- Claim C6, amended: `_check_open_line` returns true iff the combined run
check `_check_line` holds AND at least one of the two cells at offsets
exactly `+length` and `-length` steps from the origin (not one step past the
ends of the run actually found) is in-bounds and empty. -/
theorem claim_C6_amended (N : Nat) (b : Board) (row col dr dc : Int)
    (p len : Nat) :
    checkOpenLine N b row col dr dc p len = true ↔
      (checkLine N b row col dr dc p len = true ∧
        (openEndAt N b (row + (len : Int) * dr) (col + (len : Int) * dc) ∨
         openEndAt N b (row - (len : Int) * dr) (col - (len : Int) * dc))) := by
  rw [checkOpenLine_closed_form]
  simp

/-- Claim C8 is refuted at a concrete input: when the origin cell does not
hold the player's stone, `_check_open_line` is not symmetric under direction
negation. -/
theorem claim_C8_counterexample :
    checkOpenLine 7 boardC8 0 3 0 1 1 3 = true ∧
    checkOpenLine 7 boardC8 0 3 0 (-1) 1 3 = false := by decide

/-- Claim C8, amended: `_check_open_line` is symmetric under direction
negation provided the origin cell is in bounds and holds the player's stone
(the caller's precondition: scoring always places the trial stone first). -/
theorem claim_C8_amended (N : Nat) (b : Board) (row col dr dc : Int)
    (p len : Nat) (h : inBounds N row col ∧ cellAt b row col = p) :
    checkOpenLine N b row col dr dc p len =
      checkOpenLine N b row col (-dr) (-dc) p len :=
  checkOpenLine_symm N b row col dr dc p len h

/-- Witness for the amended claim C8 at a concrete input satisfying its
hypothesis. -/
theorem claim_C8_amended_witness :
    (inBounds 5 0 1 ∧ cellAt boardC6 0 1 = 1) ∧
    checkOpenLine 5 boardC6 0 1 0 1 1 2 =
      checkOpenLine 5 boardC6 0 1 0 (-1) 1 2 :=
  ⟨by decide, claim_C8_amended 5 boardC6 0 1 0 1 1 2 ⟨by decide, by decide⟩⟩

/-! ### Lemmas about candidate-move enumeration -/

lemma cellAt_toNat (b : Board) (r c : Int) (hr : 0 ≤ r) (hc : 0 ≤ c) :
    cellAt b r c = cellNat b (r.toNat, c.toNat) := by
  unfold cellAt cellNat
  rw [if_pos ⟨hr, hc⟩]

lemma mem_occupiedPositions (b : Board) (r c : Nat) :
    (r, c) ∈ occupiedPositions b ↔ 0 < cellNat b (r, c) := by
  unfold occupiedPositions
  simp only [List.mem_flatMap, List.mem_map, List.mem_filter, List.mem_range,
    decide_eq_true_eq, cellNat_eq]
  constructor
  · rintro ⟨r', hr', c', ⟨⟨hc', hv⟩, heq⟩⟩
    obtain ⟨rfl, rfl⟩ := Prod.mk.injEq .. ▸ heq
    exact hv
  · intro h
    have hr : r < b.length := by
      by_contra hr
      push_neg at hr
      rw [List.getD_eq_default _ _ hr] at h
      simp at h
    have hc : c < (b.getD r []).length := by
      by_contra hc
      push_neg at hc
      rw [List.getD_eq_default _ _ hc] at h
      simp at h
    exact ⟨r, hr, c, ⟨hc, h⟩, rfl⟩

lemma offsets_explicit : offsets = [(-2,-2),(-2,-1),(-2,0),(-2,1),(-2,2),
    (-1,-2),(-1,-1),(-1,0),(-1,1),(-1,2),
    (0,-2),(0,-1),(0,0),(0,1),(0,2),
    (1,-2),(1,-1),(1,0),(1,1),(1,2),
    (2,-2),(2,-1),(2,0),(2,1),(2,2)] := by decide

lemma mem_offsets (d : Int × Int) :
    d ∈ offsets ↔ -2 ≤ d.1 ∧ d.1 ≤ 2 ∧ -2 ≤ d.2 ∧ d.2 ≤ 2 := by
  obtain ⟨d1, d2⟩ := d
  rw [offsets_explicit]
  constructor
  · intro h
    fin_cases h <;> decide
  · intro h
    obtain ⟨h1, h2, h3, h4⟩ := h
    interval_cases d1 <;> interval_cases d2 <;> decide

lemma mem_addCandidate (N : Nat) (b : Board) (s : Nat × Nat)
    (acc : List (Nat × Nat)) (off : Int × Int) (x : Nat × Nat) :
    x ∈ addCandidate N b s acc off ↔
      x ∈ acc ∨ (candCond N b s off ∧ x = candTgt s off) := by
  unfold addCandidate
  split
  · next hcond =>
    simp only [List.mem_append, List.mem_singleton]
    constructor
    · rintro (h | rfl)
      · exact Or.inl h
      · exact Or.inr ⟨hcond.1, rfl⟩
    · rintro (h | ⟨_, rfl⟩)
      · exact Or.inl h
      · simp
  · next hcond =>
    rw [not_and_or, not_not] at hcond
    constructor
    · exact Or.inl
    · rintro (h | ⟨hc, rfl⟩)
      · exact h
      · rcases hcond with h' | h'
        · exact absurd hc h'
        · exact h'

lemma mem_foldl_addCandidate (N : Nat) (b : Board) (s : Nat × Nat) :
    ∀ (offs : List (Int × Int)) (acc : List (Nat × Nat)) (x : Nat × Nat),
      x ∈ offs.foldl (addCandidate N b s) acc ↔
        x ∈ acc ∨ ∃ off ∈ offs, candCond N b s off ∧ x = candTgt s off := by
  intro offs
  induction offs with
  | nil => simp
  | cons o os ih =>
    intro acc x
    simp only [List.foldl_cons, ih, mem_addCandidate, List.mem_cons]
    constructor
    · rintro ((h | h) | ⟨off, hoff, h⟩)
      · exact Or.inl h
      · exact Or.inr ⟨o, Or.inl rfl, h⟩
      · exact Or.inr ⟨off, Or.inr hoff, h⟩
    · rintro (h | ⟨off, (rfl | hoff), h⟩)
      · exact Or.inl (Or.inl h)
      · exact Or.inl (Or.inr h)
      · exact Or.inr ⟨off, hoff, h⟩

lemma mem_foldl_outer (N : Nat) (b : Board) :
    ∀ (ss : List (Nat × Nat)) (acc : List (Nat × Nat)) (x : Nat × Nat),
      x ∈ ss.foldl (fun acc s => offsets.foldl (addCandidate N b s) acc) acc ↔
        x ∈ acc ∨ ∃ s ∈ ss, ∃ off ∈ offsets, candCond N b s off ∧ x = candTgt s off := by
  intro ss
  induction ss with
  | nil => simp
  | cons s0 ss ih =>
    intro acc x
    simp only [List.foldl_cons, ih, mem_foldl_addCandidate, List.mem_cons]
    constructor
    · rintro ((h | h) | ⟨s, hs, h⟩)
      · exact Or.inl h
      · exact Or.inr ⟨s0, Or.inl rfl, h⟩
      · exact Or.inr ⟨s, Or.inr hs, h⟩
    · rintro (h | ⟨s, (rfl | hs), h⟩)
      · exact Or.inl (Or.inl h)
      · exact Or.inl (Or.inr h)
      · exact Or.inr ⟨s, hs, h⟩

/-- Membership in `_get_valid_moves` on a board with stones: exactly the
in-bounds empty cells within Chebyshev distance 2 of an occupied cell. -/
lemma mem_getValidMoves (N : Nat) (b : Board)
    (hocc : occupiedPositions b ≠ []) (m : Nat × Nat) :
    m ∈ getValidMoves N b ↔
      m.1 < N ∧ m.2 < N ∧ cellNat b m = 0 ∧
      ∃ s : Nat × Nat, 0 < cellNat b s ∧ chebDist s m ≤ 2 := by
  unfold getValidMoves
  rw [if_neg (by simpa [List.isEmpty_iff] using hocc)]
  rw [mem_foldl_outer]
  simp only [List.not_mem_nil, false_or]
  constructor
  · rintro ⟨s, hs, off, hoff, ⟨hib, hempty⟩, rfl⟩
    obtain ⟨s1, s2⟩ := s
    obtain ⟨o1, o2⟩ := off
    rw [mem_offsets] at hoff
    dsimp only at hoff hib hempty ⊢
    obtain ⟨ho1, ho2, ho3, ho4⟩ := hoff
    obtain ⟨hb1, hb2, hb3, hb4⟩ := hib
    have hs' : 0 < cellNat b (s1, s2) := (mem_occupiedPositions b s1 s2).mp hs
    rw [cellAt_toNat b _ _ hb1 hb3] at hempty
    refine ⟨?_, ?_, ?_, ⟨(s1, s2), hs', ?_⟩⟩
    · simp only [candTgt]
      omega
    · simp only [candTgt]
      omega
    · simpa [candTgt] using hempty
    · simp only [candTgt, chebDist]
      omega
  · rintro ⟨hm1, hm2, hcell, ⟨s1, s2⟩, hs, hd⟩
    obtain ⟨m1, m2⟩ := m
    refine ⟨(s1, s2), (mem_occupiedPositions b s1 s2).mpr hs,
      ((m1 : Int) - s1, (m2 : Int) - s2), ?_, ⟨?_, ?_⟩, ?_⟩
    · rw [mem_offsets]
      simp only [chebDist] at hd
      simp only
      omega
    · unfold inBounds
      simp only
      omega
    · have h1 : (s1 : Int) + ((m1 : Int) - s1) = (m1 : Int) := by ring
      have h2 : (s2 : Int) + ((m2 : Int) - s2) = (m2 : Int) := by ring
      simp only [h1, h2]
      rw [cellAt_toNat b _ _ (by omega) (by omega)]
      simpa using hcell
    · simp only [candTgt]
      have h1 : (s1 : Int) + ((m1 : Int) - s1) = (m1 : Int) := by ring
      have h2 : (s2 : Int) + ((m2 : Int) - s2) = (m2 : Int) := by ring
      simp [h1, h2]

lemma nodup_addCandidate (N : Nat) (b : Board) (s : Nat × Nat)
    (acc : List (Nat × Nat)) (off : Int × Int) (h : acc.Nodup) :
    (addCandidate N b s acc off).Nodup := by
  unfold addCandidate
  split
  · next hc =>
    rw [List.nodup_append]
    exact ⟨h, List.nodup_singleton _, by simpa using hc.2⟩
  · exact h

lemma nodup_foldl_addCandidate (N : Nat) (b : Board) (s : Nat × Nat) :
    ∀ (offs : List (Int × Int)) (acc : List (Nat × Nat)), acc.Nodup →
      (offs.foldl (addCandidate N b s) acc).Nodup := by
  intro offs
  induction offs with
  | nil => intro acc h; exact h
  | cons o os ih =>
    intro acc h
    exact ih _ (nodup_addCandidate N b s acc o h)

lemma nodup_foldl_outer (N : Nat) (b : Board) :
    ∀ (ss : List (Nat × Nat)) (acc : List (Nat × Nat)), acc.Nodup →
      (ss.foldl (fun acc s => offsets.foldl (addCandidate N b s) acc) acc).Nodup := by
  intro ss
  induction ss with
  | nil => intro acc h; exact h
  | cons s0 ss ih =>
    intro acc h
    exact ih _ (nodup_foldl_addCandidate N b s0 offsets acc h)

lemma nodup_getValidMoves (N : Nat) (b : Board) : (getValidMoves N b).Nodup := by
  unfold getValidMoves
  simp only
  split
  · exact List.nodup_singleton _
  · exact nodup_foldl_outer N b _ [] List.nodup_nil

lemma occupiedPositions_eq_nil_iff (b : Board) :
    occupiedPositions b = [] ↔ ∀ rc : Nat × Nat, cellNat b rc = 0 := by
  rw [List.eq_nil_iff_forall_not_mem]
  constructor
  · intro h rc
    obtain ⟨r, c⟩ := rc
    have := h (r, c)
    rw [mem_occupiedPositions] at this
    omega
  · intro h rc hm
    obtain ⟨r, c⟩ := rc
    rw [mem_occupiedPositions] at hm
    rw [h (r, c)] at hm
    omega

/-- On a board with a stone and an empty cell (both within the engine's
bounds), some empty in-bounds cell lies within Chebyshev distance 2 of a
stone, by walking from the empty cell toward the stone. -/
lemma near_empty_of_dist (N : Nat) (b : Board) :
    ∀ d (s e : Nat × Nat), s.1 < N → s.2 < N → 0 < cellNat b s →
      e.1 < N → e.2 < N → cellNat b e = 0 →
      (s.1 - e.1) + (e.1 - s.1) + ((s.2 - e.2) + (e.2 - s.2)) = d →
      ∃ m : Nat × Nat, m.1 < N ∧ m.2 < N ∧ cellNat b m = 0 ∧
        ∃ s' : Nat × Nat, 0 < cellNat b s' ∧ chebDist s' m ≤ 2 := by
  intro d
  induction d using Nat.strong_induction_on with
  | _ d ih =>
    intro s e hs1 hs2 hsv he1 he2 hev hd
    by_cases hfar : d ≤ 2
    · exact ⟨e, he1, he2, hev, s, hsv, by unfold chebDist; omega⟩
    · push_neg at hfar
      obtain ⟨s1, s2⟩ := s
      obtain ⟨e1, e2⟩ := e
      simp only at hs1 hs2 hsv he1 he2 hev hd
      rcases Nat.lt_trichotomy e1 s1 with h1 | h1 | h1
      · cases hv : cellNat b (e1 + 1, e2) with
        | zero =>
          exact ih (d - 1) (by omega) (s1, s2) (e1 + 1, e2) hs1 hs2 hsv
            (by omega) he2 hv (by simp only; omega)
        | succ k =>
          exact ⟨(e1, e2), he1, he2, hev, (e1 + 1, e2), by omega,
            by unfold chebDist; simp only; omega⟩
      · rcases Nat.lt_trichotomy e2 s2 with h2 | h2 | h2
        · cases hv : cellNat b (e1, e2 + 1) with
          | zero =>
            exact ih (d - 1) (by omega) (s1, s2) (e1, e2 + 1) hs1 hs2 hsv
              he1 (by omega) hv (by simp only; omega)
          | succ k =>
            exact ⟨(e1, e2), he1, he2, hev, (e1, e2 + 1), by omega,
              by unfold chebDist; simp only; omega⟩
        · omega
        · cases hv : cellNat b (e1, e2 - 1) with
          | zero =>
            exact ih (d - 1) (by omega) (s1, s2) (e1, e2 - 1) hs1 hs2 hsv
              he1 (by omega) hv (by simp only; omega)
          | succ k =>
            exact ⟨(e1, e2), he1, he2, hev, (e1, e2 - 1), by omega,
              by unfold chebDist; simp only; omega⟩
      · cases hv : cellNat b (e1 - 1, e2) with
        | zero =>
          exact ih (d - 1) (by omega) (s1, s2) (e1 - 1, e2) hs1 hs2 hsv
            (by omega) he2 hv (by simp only; omega)
        | succ k =>
          exact ⟨(e1, e2), he1, he2, hev, (e1 - 1, e2), by omega,
            by unfold chebDist; simp only; omega⟩

lemma getValidMoves_ne_nil (N : Nat) (b : Board)
    (hs : ∃ s : Nat × Nat, s.1 < N ∧ s.2 < N ∧ 0 < cellNat b s)
    (he : ∃ e : Nat × Nat, e.1 < N ∧ e.2 < N ∧ cellNat b e = 0) :
    getValidMoves N b ≠ [] := by
  obtain ⟨s, hs1, hs2, hsv⟩ := hs
  obtain ⟨e, he1, he2, hev⟩ := he
  obtain ⟨m, hm1, hm2, hm3, hm4⟩ :=
    near_empty_of_dist N b _ s e hs1 hs2 hsv he1 he2 hev rfl
  have hocc : occupiedPositions b ≠ [] := by
    rw [Ne, occupiedPositions_eq_nil_iff]
    intro h
    obtain ⟨s2, hs2v, _⟩ := hm4
    rw [h s2] at hs2v
    omega
  have : m ∈ getValidMoves N b :=
    (mem_getValidMoves N b hocc m).mpr ⟨hm1, hm2, hm3, hm4⟩
  exact List.ne_nil_of_mem this

/-- Claim C7: `_get_valid_moves` returns, without duplicates, exactly the
in-bounds empty cells within Chebyshev distance 2 of an occupied cell, and
the single centre cell `(N/2, N/2)` when the board has no stones. -/
theorem claim_C7 (N : Nat) (b : Board) :
    (getValidMoves N b).Nodup ∧
    ((∀ rc : Nat × Nat, cellNat b rc = 0) →
      getValidMoves N b = [(N / 2, N / 2)]) ∧
    ((∃ rc : Nat × Nat, cellNat b rc ≠ 0) →
      ∀ m : Nat × Nat, m ∈ getValidMoves N b ↔
        m.1 < N ∧ m.2 < N ∧ cellNat b m = 0 ∧
        ∃ s : Nat × Nat, 0 < cellNat b s ∧ chebDist s m ≤ 2) := by
  refine ⟨nodup_getValidMoves N b, ?_, ?_⟩
  · intro h
    unfold getValidMoves
    simp only
    rw [if_pos]
    rw [List.isEmpty_iff, occupiedPositions_eq_nil_iff]
    exact h
  · intro h m
    apply mem_getValidMoves
    rw [Ne, occupiedPositions_eq_nil_iff]
    intro hall
    obtain ⟨rc, hrc⟩ := h
    exact hrc (hall rc)

/-- Witness for claim C7 at a concrete board with stones. -/
theorem claim_C7_witness :
    (∃ rc : Nat × Nat, cellNat boardC6 rc ≠ 0) ∧
    ((0, 3) ∈ getValidMoves 5 boardC6 ↔
      (0 : Nat) < 5 ∧ (3 : Nat) < 5 ∧ cellNat boardC6 (0, 3) = 0 ∧
      ∃ s : Nat × Nat, 0 < cellNat boardC6 s ∧ chebDist s (0, 3) ≤ 2) :=
  ⟨⟨(0, 0), by decide⟩, (claim_C7 5 boardC6).2.2 ⟨(0, 0), by decide⟩ (0, 3)⟩

/-! ### Lemmas about the move selector -/

lemma argmaxGo_mem (f : Nat × Nat → ℚ) :
    ∀ (l : List (Nat × Nat)) (best : Nat × Nat) (bs : ℚ),
      argmaxGo f best bs l = best ∨ argmaxGo f best bs l ∈ l := by
  intro l
  induction l with
  | nil => intro best bs; left; rfl
  | cons y ys ih =>
    intro best bs
    simp only [argmaxGo]
    split
    · rcases ih y (f y) with h | h
      · right; rw [h]; exact List.mem_cons_self y ys
      · right; exact List.mem_cons_of_mem y h
    · rcases ih best bs with h | h
      · left; exact h
      · right; exact List.mem_cons_of_mem y h

lemma argmaxFirst_mem (f : Nat × Nat → ℚ) (l : List (Nat × Nat))
    (m : Nat × Nat) (h : argmaxFirst f l = some m) : m ∈ l := by
  cases l with
  | nil => simp [argmaxFirst] at h
  | cons x xs =>
    simp only [argmaxFirst, Option.some.injEq] at h
    rcases argmaxGo_mem f xs x (f x) with h2 | h2
    · rw [← h, h2]; exact List.mem_cons_self x xs
    · rw [← h]; exact List.mem_cons_of_mem x h2

lemma cellNat_nil (rc : Nat × Nat) : cellNat ([] : Board) rc = 0 := by
  unfold cellNat
  cases rc.1 <;> simp [List.getD]

lemma stoneCount_eq_zero_iff (b : Board) :
    stoneCount b = 0 ↔ ∀ rc : Nat × Nat, cellNat b rc = 0 := by
  unfold stoneCount
  rw [List.sum_eq_zero_iff]
  constructor
  · intro h rc
    obtain ⟨r, c⟩ := rc
    rcases Nat.lt_or_ge r b.length with hr | hr
    · have hrow : b.getD r [] ∈ b := by
        rw [List.getD_eq_getElem b [] hr]
        exact List.getElem_mem hr
      have h2 := h _ (List.mem_map.mpr ⟨b.getD r [], hrow, rfl⟩)
      rw [List.length_eq_zero, List.filter_eq_nil_iff] at h2
      rcases Nat.lt_or_ge c (b.getD r []).length with hc | hc
      · have hm : (b.getD r []).getD c 0 ∈ b.getD r [] := by
          rw [List.getD_eq_getElem _ _ hc]
          exact List.getElem_mem hc
        have := h2 _ hm
        rw [cellNat_eq]
        simpa using this
      · rw [cellNat_eq, List.getD_eq_default _ _ hc]
    · rw [cellNat_eq, List.getD_eq_default _ _ hr]
      simp [List.getD]
  · intro h x hx
    obtain ⟨row, hrow, rfl⟩ := List.mem_map.mp hx
    rw [List.length_eq_zero, List.filter_eq_nil_iff]
    intro v hv
    obtain ⟨r, hr, rfl⟩ := List.getElem_of_mem hrow
    obtain ⟨c, hc, rfl⟩ := List.getElem_of_mem hv
    have := h (r, c)
    rw [cellNat_eq, List.getD_eq_getElem b [] hr, List.getD_eq_getElem _ _ hc] at this
    simp [this]

lemma lookup_eq_none_of_not_mem {β : Type} (k : List Char)
    (l : List (List Char × β)) (h : k ∉ l.map Prod.fst) :
    List.lookup k l = none := by
  induction l with
  | nil => rfl
  | cons a as ih =>
    simp only [List.map_cons, List.mem_cons, not_or] at h
    rw [List.lookup]
    rw [beq_eq_false_iff_ne.mpr h.1]
    exact ih h.2

lemma boardToString_of_allZero (b : Board)
    (h : ∀ rc : Nat × Nat, cellNat b rc = 0) : boardToString b = [] := by
  have h1 : wherePositions b 1 = wherePositions ([] : Board) 1 := by
    apply wp_eq_of_same b [] 1 one_ne_zero
    intro rc
    rw [h rc, cellNat_nil]
  have h2 : wherePositions b 2 = wherePositions ([] : Board) 2 := by
    apply wp_eq_of_same b [] 2 two_ne_zero
    intro rc
    rw [h rc, cellNat_nil]
  rw [boardToString_congr b [] h1 h2]
  rfl

/-- Claim C3, amended: every board with zero stones hits the opening book's
empty-board entry, so `get_best_move` returns (7,7) -- which is the centre
cell `(N//2, N//2)` only when `N//2 = 7`; boards with exactly one stone are
not covered by the centre stage (which fires only at zero stones) and fall
through to the heuristic path. -/
theorem claim_C3_amended (N : Nat) (p : Nat) (j : Nat × Nat → ℚ) (b : Board)
    (hwf : Wellformed N b) (h0 : stoneCount b = 0) :
    getBestMove N b p j = some (7, 7) := by
  have hall := (stoneCount_eq_zero_iff b).mp h0
  have henc := boardToString_of_allZero b hall
  unfold getBestMove
  rw [henc, show bookLookup [] = some (7, 7) from by decide]

/-- Witness for the amended claim C3 on the empty 3x3 board. -/
theorem claim_C3_amended_witness :
    (Wellformed 3 zeros3 ∧ stoneCount zeros3 = 0) ∧
    getBestMove 3 zeros3 1 zeroJitter = some (7, 7) :=
  ⟨⟨by decide, by decide⟩,
   claim_C3_amended 3 1 zeroJitter zeros3 (by decide) (by decide)⟩

/-- Claim C3 is refuted at concrete inputs.  The empty 3x3 board returns
(7,7) -- the opening-book reply, out of bounds for the board and not the
centre (1,1).  The 3x3 board with one stone (at the centre) under player 2
is scored heuristically and returns (0,1), not the centre. -/
theorem claim_C3_counterexample :
    (stoneCount zeros3 = 0 ∧
     getBestMove 3 zeros3 1 zeroJitter = some (7, 7) ∧
     (7, 7) ≠ (3 / 2, 3 / 2)) ∧
    (stoneCount oneStone3 = 1 ∧
     getBestMove 3 oneStone3 2 zeroJitter = some (0, 1) ∧
     (0, 1) ≠ (3 / 2, 3 / 2)) := by
  refine ⟨⟨by decide, by decide, by decide⟩, by decide, ?_, by decide⟩
  have hbk : bookLookup (boardToString oneStone3) = none := by decide
  have hsc : ¬stoneCount oneStone3 = 0 := by decide
  have him : checkImmediateThreats 3 oneStone3 2 = none := by decide
  have hvm : getValidMoves 3 oneStone3 =
      [(0,0),(0,1),(0,2),(1,0),(1,2),(2,0),(2,1),(2,2)] := by decide
  have hev : ∀ m : Nat × Nat, makesFiveAt 3 oneStone3 m 2 = false → 
      evaluateMove 3 oneStone3 m 2 0 = (evalStages 3 oneStone3 m 2 : ℚ) := by
    intro m hm
    unfold evaluateMove
    rw [if_neg (by rw [hm]; exact Bool.false_ne_true)]
    norm_num
  have e1 : evaluateMove 3 oneStone3 (0,0) 2 0 = (80 : ℚ) := by
    rw [hev (0,0) (by decide), show evalStages 3 oneStone3 (0,0) 2 = 80 from by decide]
    norm_num
  have e2 : evaluateMove 3 oneStone3 (0,1) 2 0 = (90 : ℚ) := by
    rw [hev (0,1) (by decide), show evalStages 3 oneStone3 (0,1) 2 = 90 from by decide]
    norm_num
  have e3 : evaluateMove 3 oneStone3 (0,2) 2 0 = (80 : ℚ) := by
    rw [hev (0,2) (by decide), show evalStages 3 oneStone3 (0,2) 2 = 80 from by decide]
    norm_num
  have e4 : evaluateMove 3 oneStone3 (1,0) 2 0 = (90 : ℚ) := by
    rw [hev (1,0) (by decide), show evalStages 3 oneStone3 (1,0) 2 = 90 from by decide]
    norm_num
  have e5 : evaluateMove 3 oneStone3 (1,2) 2 0 = (90 : ℚ) := by
    rw [hev (1,2) (by decide), show evalStages 3 oneStone3 (1,2) 2 = 90 from by decide]
    norm_num
  have e6 : evaluateMove 3 oneStone3 (2,0) 2 0 = (80 : ℚ) := by
    rw [hev (2,0) (by decide), show evalStages 3 oneStone3 (2,0) 2 = 80 from by decide]
    norm_num
  have e7 : evaluateMove 3 oneStone3 (2,1) 2 0 = (90 : ℚ) := by
    rw [hev (2,1) (by decide), show evalStages 3 oneStone3 (2,1) 2 = 90 from by decide]
    norm_num
  have e8 : evaluateMove 3 oneStone3 (2,2) 2 0 = (80 : ℚ) := by
    rw [hev (2,2) (by decide), show evalStages 3 oneStone3 (2,2) 2 = 80 from by decide]
    norm_num
  unfold getBestMove
  rw [hbk, if_neg hsc, him]
  simp only [hvm]
  rw [if_neg (by norm_num)]
  unfold argmaxFirst
  simp only [zeroJitter]
  simp only [argmaxGo, e1, e2, e3, e4, e5, e6, e7, e8]
  norm_num


lemma cellNat_placeAt_self (b : Board) (r c v : Nat) (hr : r < b.length)
    (hc : c < (b.getD r []).length) :
    cellNat (placeAt b r c v) (r, c) = v := by
  unfold placeAt
  rw [cellNat_eq]
  have hrow : (b.set r ((b.getD r []).set c v)).getD r [] =
      (b.getD r []).set c v := by
    rw [List.getD_eq_getElem _ _ (by rw [List.length_set]; exact hr)]
    exact List.getElem_set_self _
  rw [hrow]
  rw [List.getD_eq_getElem _ _ (by rw [List.length_set]; exact hc)]
  exact List.getElem_set_self _

lemma cellNat_placeAt_other (b : Board) (r c v : Nat) (rc : Nat × Nat)
    (h : rc ≠ (r, c)) : cellNat (placeAt b r c v) rc = cellNat b rc := by
  obtain ⟨r', c'⟩ := rc
  unfold placeAt
  rw [cellNat_eq, cellNat_eq]
  by_cases hr : r = r'
  · subst hr
    have hc : c ≠ c' := by
      intro hc
      exact h (by rw [hc])
    rcases Nat.lt_or_ge r b.length with hrl | hrl
    · have hrow : (b.set r ((b.getD r []).set c v)).getD r [] =
          (b.getD r []).set c v := by
        rw [List.getD_eq_getElem _ _ (by rw [List.length_set]; exact hrl)]
        exact List.getElem_set_self _
      rw [hrow]
      rw [List.getD_eq_getElem?_getD, List.getElem?_set_ne hc,
          ← List.getD_eq_getElem?_getD]
    · rw [List.set_eq_of_length_le hrl]
  · have hrow2 : (b.set r ((b.getD r []).set c v)).getD r' [] =
        b.getD r' [] := by
      rw [List.getD_eq_getElem?_getD, List.getElem?_set_ne hr,
          ← List.getD_eq_getElem?_getD]
    rw [hrow2]

lemma cellAt_placeAt_self (N : Nat) (b : Board) (hwf : Wellformed N b)
    (x y : Int) (v : Nat) (hib : inBounds N x y) :
    cellAt (placeAt b x.toNat y.toNat v) x y = v := by
  obtain ⟨h1, h2, h3, h4⟩ := hib
  rw [cellAt_toNat _ _ _ h1 h3]
  have hlt : x.toNat < b.length := by rw [hwf.1]; omega
  apply cellNat_placeAt_self _ _ _ _ hlt
  have hrow : (b.getD x.toNat []).length = N := hwf.2.1 _
    (by rw [List.getD_eq_getElem _ _ hlt]; exact List.getElem_mem hlt)
  omega

lemma cellAt_placeAt_other (b : Board) (er ec v : Nat) (x y : Int)
    (hx : 0 ≤ x) (hy : 0 ≤ y) (hne : ¬(x = (er : Int) ∧ y = (ec : Int))) :
    cellAt (placeAt b er ec v) x y = cellAt b x y := by
  rw [cellAt_toNat _ _ _ hx hy, cellAt_toNat _ _ _ hx hy]
  apply cellNat_placeAt_other
  intro he
  rw [Prod.mk.injEq] at he
  exact hne (by omega)

lemma cnt_ge (N : Nat) (b : Board) (p : Nat) (dr dc : Int) :
    ∀ (fuel j : Nat) (r c : Int),
      (∀ i : Nat, i < j → i < fuel →
        inBounds N (r + i * dr) (c + i * dc) ∧
        cellAt b (r + i * dr) (c + i * dc) = p) →
      min fuel j ≤ cnt N b r c dr dc p fuel := by
  intro fuel
  induction fuel with
  | zero => intro j r c h; simp
  | succ f ih =>
    intro j r c h
    cases j with
    | zero => simp
    | succ j' =>
      have h0 := h 0 (by omega) (by omega)
      simp only [Nat.cast_zero, zero_mul, add_zero] at h0
      simp only [cnt, if_pos h0]
      have hrec : min f j' ≤ cnt N b (r + dr) (c + dc) dr dc p f := by
        apply ih
        intro i hi1 hi2
        have h' := h (i + 1) (by omega) (by omega)
        rw [show r + (↑(i + 1) : Int) * dr = (r + dr) + (i : Int) * dr by
              push_cast; ring,
            show c + (↑(i + 1) : Int) * dc = (c + dc) + (i : Int) * dc by
              push_cast; ring] at h'
        exact h'
      omega

lemma checkLine_true_of_cover (N : Nat) (b : Board) (row col dr dc : Int)
    (p len f bk : Nat)
    (hf : ∀ i : Nat, i < f →
      inBounds N (row + i * dr) (col + i * dc) ∧
      cellAt b (row + i * dr) (col + i * dc) = p)
    (hb : ∀ i : Nat, i < bk →
      inBounds N (row - ((i : Int) + 1) * dr) (col - ((i : Int) + 1) * dc) ∧
      cellAt b (row - ((i : Int) + 1) * dr) (col - ((i : Int) + 1) * dc) = p)
    (hlen : len ≤ f + bk) :
    checkLine N b row col dr dc p len = true := by
  unfold checkLine
  simp only [decide_eq_true_eq]
  have h1 : min len f ≤ cnt N b row col dr dc p len :=
    cnt_ge N b p dr dc len f row col (fun i hij _ => hf i hij)
  have hc1 : cnt N b row col dr dc p len ≤ len := cnt_le N b row col dr dc p len
  have h2 : min (len - cnt N b row col dr dc p len) bk ≤
      cnt N b (row - dr) (col - dc) (-dr) (-dc) p
        (len - cnt N b row col dr dc p len) := by
    apply cnt_ge
    intro i hij _
    have h' := hb i hij
    rw [show row - ((i : Int) + 1) * dr = (row - dr) + (i : Int) * (-dr) by ring,
        show col - ((i : Int) + 1) * dc = (col - dc) + (i : Int) * (-dc) by ring] at h'
    exact h'
  omega



/-- From a four-in-a-row of `p` with an in-bounds empty extension cell,
the extension cell is a valid move and completes a run of five. -/
lemma exists_winning_move (N : Nat) (b : Board) (p : Nat)
    (hwf : Wellformed N b) (hp : 0 < p)
    (r c dr dc : Int) (hd : (dr, dc) ∈ axes)
    (hrun : ∀ i : Nat, i < 4 →
      inBounds N (r + i * dr) (c + i * dc) ∧
      cellAt b (r + i * dr) (c + i * dc) = p)
    (hext : openEndAt N b (r - dr) (c - dc) ∨
            openEndAt N b (r + 4 * dr) (c + 4 * dc)) :
    ∃ m : Nat × Nat, m ∈ getValidMoves N b ∧ makesFiveAt N b m p = true := by
  have hdp : -1 ≤ dr ∧ dr ≤ 1 ∧ -1 ≤ dc ∧ dc ≤ 1 ∧ ¬(dr = 0 ∧ dc = 0) := by
    fin_cases hd <;> norm_num
  have h0 := hrun 0 (by omega)
  norm_num at h0
  obtain ⟨⟨hr0, hr1, hc0, hc1⟩, hval0⟩ := h0
  have hoccm : 0 < cellNat b (r.toNat, c.toNat) := by
    rw [← cellAt_toNat b r c hr0 hc0, hval0]
    exact hp
  have hocc : occupiedPositions b ≠ [] := by
    rw [Ne, occupiedPositions_eq_nil_iff]
    intro hall
    rw [hall (r.toNat, c.toNat)] at hoccm
    omega
  rcases hext with ⟨⟨he0, he1, he2, he3⟩, hemp⟩ | ⟨⟨he0, he1, he2, he3⟩, hemp⟩
  · -- extension one step before the run start
    refine ⟨((r - dr).toNat, (c - dc).toNat), ?_, ?_⟩
    · rw [mem_getValidMoves N b hocc]
      refine ⟨by omega, by omega, ?_, ⟨(r.toNat, c.toNat), hoccm, ?_⟩⟩
      · rw [← cellAt_toNat b _ _ he0 he2]
        exact hemp
      · unfold chebDist
        simp only
        omega
    · unfold makesFiveAt
      rw [List.any_eq_true]
      refine ⟨(dr, dc), hd, ?_⟩
      simp only
      rw [Int.toNat_of_nonneg he0, Int.toNat_of_nonneg he2]
      apply checkLine_true_of_cover N _ _ _ dr dc p 5 5 0
      · intro i hi
        cases i with
        | zero =>
          norm_num
          refine ⟨⟨he0, he1, he2, he3⟩, ?_⟩
          exact cellAt_placeAt_self N b hwf (r - dr) (c - dc) p ⟨he0, he1, he2, he3⟩
        | succ k =>
          have hk : k < 4 := by omega
          have h' := hrun k hk
          have e1 : (r - dr) + (↑(k + 1) : Int) * dr = r + (k : Int) * dr := by
            push_cast; ring
          have e2 : (c - dc) + (↑(k + 1) : Int) * dc = c + (k : Int) * dc := by
            push_cast; ring
          rw [e1, e2]
          refine ⟨h'.1, ?_⟩
          rw [cellAt_placeAt_other b _ _ p _ _ h'.1.1 h'.1.2.2.1 ?_]
          · exact h'.2
          · rintro ⟨hx, hy⟩
            rw [Int.toNat_of_nonneg he0] at hx
            rw [Int.toNat_of_nonneg he2] at hy
            have hdr0 : dr = 0 := by
              rcases mul_eq_zero.mp (show ((k : Int) + 1) * dr = 0 by linarith) with h | h
              · omega
              · exact h
            have hdc0 : dc = 0 := by
              rcases mul_eq_zero.mp (show ((k : Int) + 1) * dc = 0 by linarith) with h | h
              · omega
              · exact h
            exact hdp.2.2.2.2 ⟨hdr0, hdc0⟩
      · intro i hi
        omega
      · omega
  · -- extension one step past the run end
    have h3 := hrun 3 (by omega)
    refine ⟨((r + 4 * dr).toNat, (c + 4 * dc).toNat), ?_, ?_⟩
    · rw [mem_getValidMoves N b hocc]
      refine ⟨by omega, by omega, ?_,
        ⟨((r + 3 * dr).toNat, (c + 3 * dc).toNat), ?_, ?_⟩⟩
      · rw [← cellAt_toNat b _ _ he0 he2]
        exact hemp
      · have h3v := h3.2
        have h3b := h3.1
        norm_num at h3v h3b
        rw [← cellAt_toNat b _ _ h3b.1 h3b.2.2.1]
        rw [h3v]
        exact hp
      · unfold chebDist
        simp only
        omega
    · unfold makesFiveAt
      rw [List.any_eq_true]
      refine ⟨(dr, dc), hd, ?_⟩
      simp only
      rw [Int.toNat_of_nonneg he0, Int.toNat_of_nonneg he2]
      apply checkLine_true_of_cover N _ _ _ dr dc p 5 1 4
      · intro i hi
        have hi0 : i = 0 := by omega
        subst hi0
        norm_num
        refine ⟨⟨he0, he1, he2, he3⟩, ?_⟩
        exact cellAt_placeAt_self N b hwf (r + 4 * dr) (c + 4 * dc) p
          ⟨he0, he1, he2, he3⟩
      · intro i hi
        have h' := hrun (3 - i) (by omega)
        have e1 : (r + 4 * dr) - ((i : Int) + 1) * dr =
            r + ((3 - i : Nat) : Int) * dr := by
          rw [Nat.cast_sub (by omega)]
          push_cast
          ring
        have e2 : (c + 4 * dc) - ((i : Int) + 1) * dc =
            c + ((3 - i : Nat) : Int) * dc := by
          rw [Nat.cast_sub (by omega)]
          push_cast
          ring
        rw [e1, e2]
        refine ⟨h'.1, ?_⟩
        rw [cellAt_placeAt_other b _ _ p _ _ h'.1.1 h'.1.2.2.1 ?_]
        · exact h'.2
        · rintro ⟨hx, hy⟩
          rw [Int.toNat_of_nonneg he0] at hx
          rw [Int.toNat_of_nonneg he2] at hy
          have hk4 : ((3 - i : Nat) : Int) ≤ 3 := by
            rw [Nat.cast_sub (by omega)]
            push_cast
            omega
          have hdr0 : dr = 0 := by
            rcases mul_eq_zero.mp
              (show (4 - ((3 - i : Nat) : Int)) * dr = 0 by linarith) with h | h
            · omega
            · exact h
          have hdc0 : dc = 0 := by
            rcases mul_eq_zero.mp
              (show (4 - ((3 - i : Nat) : Int)) * dc = 0 by linarith) with h | h
            · omega
            · exact h
          exact hdp.2.2.2.2 ⟨hdr0, hdc0⟩
      · omega



/-- Claim C4: on a well-formed board whose encoding misses the opening
book, if the mover has four in a row with an in-bounds empty extension
cell, `get_best_move` returns a cell whose occupation by the mover
completes a run of five (found by the win scan of
`_check_immediate_threats`). -/
theorem claim_C4 (N : Nat) (b : Board) (p : Nat) (j : Nat × Nat → ℚ)
    (hwf : Wellformed N b) (hp : p = 1 ∨ p = 2)
    (hbook : boardToString b ∉ bookKeys)
    (hfour : hasFourWithExtension N b p = true) :
    ∃ m : Nat × Nat, getBestMove N b p j = some m ∧
      makesFiveAt N b m p = true := by
  simp only [hasFourWithExtension, List.any_eq_true, List.mem_range,
    Bool.and_eq_true, List.all_eq_true, Bool.or_eq_true,
    decide_eq_true_eq] at hfour
  obtain ⟨r, hr, c, hc, ⟨dr, dc⟩, hdmem, hruns, hexts⟩ := hfour
  have hruns' : ∀ i : Nat, i < 4 →
      inBounds N ((r : Int) + i * dr) ((c : Int) + i * dc) ∧
      cellAt b ((r : Int) + i * dr) ((c : Int) + i * dc) = p := by
    intro i hi
    have := hruns i (by simpa using hi)
    exact ⟨this.1, this.2⟩
  obtain ⟨m, hmem, hfive⟩ := exists_winning_move N b p hwf
    (by rcases hp with rfl | rfl <;> omega) r c dr dc hdmem hruns' hexts
  have hfinds : ((getValidMoves N b).find?
      (fun m => makesFiveAt N b m p)).isSome := by
    rw [List.find?_isSome]
    exact ⟨m, hmem, hfive⟩
  obtain ⟨m0, hm0⟩ := Option.isSome_iff_exists.mp hfinds
  have hm0five : makesFiveAt N b m0 p = true := by
    simpa using List.find?_some hm0
  have hsc : ¬stoneCount b = 0 := by
    rw [stoneCount_eq_zero_iff]
    intro hall
    have h0 := hruns' 0 (by omega)
    norm_num at h0
    obtain ⟨⟨h1, h2, h3, h4⟩, hv⟩ := h0
    rw [cellAt_toNat b _ _ h1 h3, hall] at hv
    omega
  have him : checkImmediateThreats N b p = some m0 := by
    unfold checkImmediateThreats
    simp only
    rw [hm0]
  have hlk : bookLookup (boardToString b) = none :=
    lookup_eq_none_of_not_mem _ _ hbook
  have hgbm : getBestMove N b p j = some m0 := by
    unfold getBestMove
    rw [hlk]
    simp only
    rw [if_neg hsc, him]
  exact ⟨m0, hgbm, hm0five⟩



lemma stone_inbounds (N : Nat) (b : Board) (hwf : Wellformed N b)
    (s : Nat × Nat) (hs : 0 < cellNat b s) : s.1 < N ∧ s.2 < N := by
  obtain ⟨r, c⟩ := s
  rw [cellNat_eq] at hs
  have hr : r < b.length := by
    by_contra hr
    push_neg at hr
    rw [List.getD_eq_default _ _ hr] at hs
    simp [List.getD] at hs
  have hc : c < (b.getD r []).length := by
    by_contra hc
    push_neg at hc
    rw [List.getD_eq_default _ _ hc] at hs
    simp at hs
  have hrow : (b.getD r []).length = N := hwf.2.1 _
    (by rw [List.getD_eq_getElem _ _ hr]; exact List.getElem_mem hr)
  refine ⟨by rw [← hwf.1]; exact hr, by omega⟩

lemma checkImmediateThreats_mem (N : Nat) (b : Board) (p : Nat)
    (m : Nat × Nat) (h : checkImmediateThreats N b p = some m) :
    m ∈ getValidMoves N b := by
  unfold checkImmediateThreats at h
  simp only at h
  cases h1 : (getValidMoves N b).find? (fun m => makesFiveAt N b m p) with
  | some m1 =>
    rw [h1] at h
    simp only [Option.some.injEq] at h
    subst h
    exact List.mem_of_find?_eq_some h1
  | none =>
    rw [h1] at h
    exact List.mem_of_find?_eq_some h

/-- Claim C1, amended: on a well-formed board with at least one empty
cell, whose string encoding is not an opening-book key, `get_best_move`
returns an in-bounds empty cell.  (Without the book-miss assumption the
claim fails: book hits return fixed 15x15 coordinates.) -/
theorem claim_C1_amended (N : Nat) (b : Board) (p : Nat) (j : Nat × Nat → ℚ)
    (hwf : Wellformed N b) (hp : p = 1 ∨ p = 2)
    (hbook : boardToString b ∉ bookKeys)
    (hempty : ∃ e : Nat × Nat, e.1 < N ∧ e.2 < N ∧ cellNat b e = 0) :
    ∃ m : Nat × Nat, getBestMove N b p j = some m ∧
      m.1 < N ∧ m.2 < N ∧ cellNat b m = 0 := by
  have hlk : bookLookup (boardToString b) = none :=
    lookup_eq_none_of_not_mem _ _ hbook
  have hsc : ¬stoneCount b = 0 := by
    intro h
    have hall := (stoneCount_eq_zero_iff b).mp h
    apply hbook
    rw [boardToString_of_allZero b hall]
    decide
  have hstone : ∃ s : Nat × Nat, 0 < cellNat b s := by
    by_contra hno
    push_neg at hno
    apply hsc
    rw [stoneCount_eq_zero_iff]
    intro rc
    have := hno rc
    omega
  obtain ⟨s, hs⟩ := hstone
  have hsb := stone_inbounds N b hwf s hs
  have hocc : occupiedPositions b ≠ [] := by
    rw [Ne, occupiedPositions_eq_nil_iff]
    intro hall
    rw [hall s] at hs
    omega
  have hmemprop : ∀ m : Nat × Nat, m ∈ getValidMoves N b →
      m.1 < N ∧ m.2 < N ∧ cellNat b m = 0 := by
    intro m hm
    have := (mem_getValidMoves N b hocc m).mp hm
    exact ⟨this.1, this.2.1, this.2.2.1⟩
  cases him : checkImmediateThreats N b p with
  | some m =>
    refine ⟨m, ?_, hmemprop m (checkImmediateThreats_mem N b p m him)⟩
    unfold getBestMove
    rw [hlk]
    simp only
    rw [if_neg hsc, him]
  | none =>
    have hvm : getValidMoves N b ≠ [] :=
      getValidMoves_ne_nil N b ⟨s, hsb.1, hsb.2, hs⟩ hempty
    by_cases hl : (getValidMoves N b).length = 1
    · obtain ⟨x, hx⟩ := List.length_eq_one.mp hl
      refine ⟨x, ?_, hmemprop x (by rw [hx]; exact List.mem_cons_self x [])⟩
      unfold getBestMove
      rw [hlk]
      simp only
      rw [if_neg hsc, him]
      simp only
      rw [if_pos hl, hx]
      rfl
    · have hsome : ∃ m, argmaxFirst
          (fun m => evaluateMove N b m p (j m)) (getValidMoves N b) = some m := by
        cases hvv : getValidMoves N b with
        | nil => exact absurd hvv hvm
        | cons x xs => exact ⟨_, rfl⟩
      obtain ⟨m, hm⟩ := hsome
      refine ⟨m, ?_, hmemprop m (argmaxFirst_mem _ _ m hm)⟩
      unfold getBestMove
      rw [hlk]
      simp only
      rw [if_neg hsc, him]
      simp only
      rw [if_neg hl, hm]

/-- Witness for claim C4 at a concrete board. -/
theorem claim_C4_witness :
    (Wellformed 7 boardC4 ∧ boardToString boardC4 ∉ bookKeys ∧
     hasFourWithExtension 7 boardC4 1 = true) ∧
    ∃ m : Nat × Nat, getBestMove 7 boardC4 1 zeroJitter = some m ∧
      makesFiveAt 7 boardC4 m 1 = true :=
  ⟨⟨by decide, by decide, by decide⟩,
   claim_C4 7 boardC4 1 zeroJitter (by decide) (Or.inl rfl) (by decide)
     (by decide)⟩

/-- Claim C1 is refuted at a concrete input: the empty 3x3 board (square,
values in range, an empty cell available) returns the opening-book reply
(7,7), which is outside the board. -/
theorem claim_C1_counterexample :
    Wellformed 3 zeros3 ∧
    (∃ e : Nat × Nat, e.1 < 3 ∧ e.2 < 3 ∧ cellNat zeros3 e = 0) ∧
    getBestMove 3 zeros3 1 zeroJitter = some (7, 7) ∧ ¬((7 : Nat) < 3) :=
  ⟨by decide, ⟨(0, 0), by decide⟩, by decide, by decide⟩

/-- Witness for the amended claim C1 at a concrete board. -/
theorem claim_C1_amended_witness :
    (Wellformed 7 boardC4 ∧ boardToString boardC4 ∉ bookKeys) ∧
    ∃ m : Nat × Nat, getBestMove 7 boardC4 2 zeroJitter = some m ∧
      m.1 < 7 ∧ m.2 < 7 ∧ cellNat boardC4 m = 0 :=
  ⟨⟨by decide, by decide⟩,
   claim_C1_amended 7 boardC4 2 zeroJitter (by decide) (Or.inr rfl)
     (by decide) ⟨(0, 0), by decide⟩⟩

lemma foldl_ite2_le {α : Type} (c1 c2 : α → Bool) (w1 w2 : Int)
    (h1 : 0 ≤ w1) (h2 : w2 ≤ w1) (l : List α) :
    ∀ s : Int,
      List.foldl (fun s d => if c1 d = true then s + w1
        else if c2 d = true then s + w2 else s) s l ≤
      s + l.length * w1 := by
  induction l with
  | nil => intro s; simp
  | cons d ds ih =>
    intro s
    simp only [List.foldl_cons, List.length_cons]
    have hstep : (if c1 d = true then s + w1
        else if c2 d = true then s + w2 else s) ≤ s + w1 := by
      split
      · exact le_refl _
      · split <;> omega
    have hcast : ((ds.length + 1 : Nat) : Int) * w1 =
        (ds.length : Int) * w1 + w1 := by push_cast; ring
    calc List.foldl _ _ ds ≤ _ + (ds.length : Int) * w1 := ih _
      _ ≤ s + w1 + (ds.length : Int) * w1 := by linarith
      _ = s + ((ds.length + 1 : Nat) : Int) * w1 := by rw [hcast]; ring

lemma foldl_ite1_le {α : Type} (c : α → Bool) (w : Int) (h1 : 0 ≤ w)
    (l : List α) :
    ∀ s : Int,
      List.foldl (fun s d => if c d = true then s + w else s) s l ≤
      s + l.length * w := by
  induction l with
  | nil => intro s; simp
  | cons d ds ih =>
    intro s
    simp only [List.foldl_cons, List.length_cons]
    have hstep : (if c d = true then s + w else s) ≤ s + w := by
      split <;> omega
    have hcast : ((ds.length + 1 : Nat) : Int) * w =
        (ds.length : Int) * w + w := by push_cast; ring
    calc List.foldl _ _ ds ≤ _ + (ds.length : Int) * w := ih _
      _ ≤ s + w + (ds.length : Int) * w := by linarith
      _ = s + ((ds.length + 1 : Nat) : Int) * w := by rw [hcast]; ring

lemma foldl_ite1_eq_zero {α : Type} (c : α → Bool) (w : Int) (l : List α)
    (h : ∀ d ∈ l, ¬c d = true) :
    ∀ s : Int, List.foldl (fun s d => if c d = true then s + w else s) s l = s := by
  induction l with
  | nil => intro s; rfl
  | cons d ds ih =>
    intro s
    simp only [List.foldl_cons, if_neg (h d (List.mem_cons_self d ds))]
    exact ih (fun x hx => h x (List.mem_cons_of_mem d hx)) s

lemma foldl4_ite2_le (c1 c2 : Int × Int → Bool) (w1 w2 : Int)
    (h1 : 0 ≤ w1) (h2 : w2 ≤ w1) (s : Int) :
    List.foldl (fun s d => if c1 d = true then s + w1
      else if c2 d = true then s + w2 else s) s axes ≤ s + 4 * w1 := by
  have := foldl_ite2_le c1 c2 w1 w2 h1 h2 axes s
  simpa [axes] using this

lemma foldl4_ite1_le (c : Int × Int → Bool) (w : Int) (h1 : 0 ≤ w) (s : Int) :
    List.foldl (fun s d => if c d = true then s + w else s) s axes ≤
      s + 4 * w := by
  have := foldl_ite1_le c w h1 axes s
  simpa [axes] using this

/-- Bound on the accumulated score of a move that does not block an
opponent five: every stage contributes at most four times its top weight,
the block-five stage contributes nothing, and centrality at most 100. -/
lemma evalStages_le (N : Nat) (b : Board) (m : Nat × Nat) (p : Nat)
    (hblock : makesFiveAt N b m (3 - p) = false) :
    evalStages N b m p ≤ 79300 := by
  obtain ⟨m1, m2⟩ := m
  unfold makesFiveAt at hblock
  rw [List.any_eq_false] at hblock
  simp only at hblock
  unfold evalStages
  simp only
  have H1 : List.foldl (fun s d =>
      if checkLine N (placeAt b m1 m2 (3 - p)) (m1 : Int) (m2 : Int)
          d.1 d.2 (3 - p) 5 = true then s + 100000 * 9 / 10 else s)
      (0 : Int) axes = 0 :=
    foldl_ite1_eq_zero _ _ axes (fun d hd => hblock d hd) 0
  rw [H1]
  have HC : (0 ⊔ (10 - (|(m1 : Int) - (N / 2 : Nat)| +
      |(m2 : Int) - (N / 2 : Nat)|))) * 10 ≤ 100 := by
    have ha1 := abs_nonneg ((m1 : Int) - (N / 2 : Nat))
    have ha2 := abs_nonneg ((m2 : Int) - (N / 2 : Nat))
    have hm : (0 ⊔ (10 - (|(m1 : Int) - (N / 2 : Nat)| +
        |(m2 : Int) - (N / 2 : Nat)|))) ≤ 10 :=
      max_le (by norm_num) (by linarith)
    linarith
  have H6 : List.foldl (fun s d =>
      if checkOpenLine N (placeAt b m1 m2 (3 - p)) (m1 : Int) (m2 : Int)
          d.1 d.2 (3 - p) 3 = true then s + 1000 * 7 / 10 else s)
      (List.foldl (fun s d =>
        if checkOpenLine N (placeAt b m1 m2 (3 - p)) (m1 : Int) (m2 : Int)
            d.1 d.2 (3 - p) 4 = true then s + 10000 * 8 / 10
        else if checkLine N (placeAt b m1 m2 (3 - p)) (m1 : Int) (m2 : Int)
            d.1 d.2 (3 - p) 4 = true then s + 5000 * 8 / 10 else s)
        (List.foldl (fun s d =>
          if checkOpenLine N (placeAt b m1 m2 p) (m1 : Int) (m2 : Int)
              d.1 d.2 p 2 = true then s + 100
          else if checkLine N (placeAt b m1 m2 p) (m1 : Int) (m2 : Int)
              d.1 d.2 p 2 = true then s + 50 else s)
          (List.foldl (fun s d =>
            if checkOpenLine N (placeAt b m1 m2 p) (m1 : Int) (m2 : Int)
                d.1 d.2 p 3 = true then s + 1000
            else if checkLine N (placeAt b m1 m2 p) (m1 : Int) (m2 : Int)
                d.1 d.2 p 3 = true then s + 500 else s)
            (List.foldl (fun s d =>
              if checkOpenLine N (placeAt b m1 m2 p) (m1 : Int) (m2 : Int)
                  d.1 d.2 p 4 = true then s + 10000
              else if checkLine N (placeAt b m1 m2 p) (m1 : Int) (m2 : Int)
                  d.1 d.2 p 4 = true then s + 5000 else s)
              (0 : Int) axes) axes) axes) axes) axes ≤ 79200 := by
    refine le_trans (foldl4_ite1_le _ (1000 * 7 / 10) (by norm_num) _) ?_
    refine le_trans (add_le_add_right
      (foldl4_ite2_le _ _ (10000 * 8 / 10) (5000 * 8 / 10)
        (by norm_num) (by norm_num) _) _) ?_
    refine le_trans (add_le_add_right (add_le_add_right
      (foldl4_ite2_le _ _ 100 50 (by norm_num) (by norm_num) _) _) _) ?_
    refine le_trans (add_le_add_right (add_le_add_right (add_le_add_right
      (foldl4_ite2_le _ _ 1000 500 (by norm_num) (by norm_num) _) _) _) _) ?_
    refine le_trans (add_le_add_right (add_le_add_right (add_le_add_right
      (add_le_add_right
        (foldl4_ite2_le _ _ 10000 5000 (by norm_num) (by norm_num) _) _) _) _) _) ?_
    norm_num
  linarith

/-- Claim C5, amended: a cell that completes a run of five for the player
receives exactly the `five` weight (100000) from `_evaluate_move`,
regardless of the jitter, and strictly outscores any cell that neither
completes a player five nor blocks an opponent five.  (A cell blocking an
opponent five in one or more directions can outscore it, since each such
direction adds 90000.) -/
theorem claim_C5_amended (N : Nat) (b : Board) (p : Nat)
    (m1 m2 : Nat × Nat) (j1 j2 : ℚ)
    (hm1 : cellNat b m1 = 0) (hm2 : cellNat b m2 = 0)
    (h1 : makesFiveAt N b m1 p = true)
    (h2 : makesFiveAt N b m2 p = false)
    (h3 : makesFiveAt N b m2 (3 - p) = false)
    (hj : j2 < 1) :
    evaluateMove N b m1 p j1 = 100000 ∧
    evaluateMove N b m2 p j2 < evaluateMove N b m1 p j1 := by
  have hv1 : evaluateMove N b m1 p j1 = 100000 := by
    unfold evaluateMove
    rw [if_pos h1]
  refine ⟨hv1, ?_⟩
  rw [hv1]
  unfold evaluateMove
  rw [if_neg (by rw [h2]; exact Bool.false_ne_true)]
  have hb := evalStages_le N b m2 p h3
  have hcast : (evalStages N b m2 p : ℚ) ≤ 79300 := by exact_mod_cast hb
  have hjj : j2 * (1/10 : ℚ) < 1 * (1/10 : ℚ) :=
    mul_lt_mul_of_pos_right hj (by norm_num)
  rw [one_mul] at hjj
  linarith



/-- Claim C5 is refuted at a concrete input: on a 10x10 board where black
can complete a five at (0,4) while white has two four-in-rows both through
(5,4), the non-five cell (5,4) scores 197490 (two 90000 block bonuses plus
opponent-pattern bonuses), strictly more than the 100000 of the
five-completing cell (0,4), whatever the jitter draws are (shown at draw 0). -/
theorem claim_C5_counterexample :
    cellNat boardC5 (0, 4) = 0 ∧ cellNat boardC5 (5, 4) = 0 ∧
    makesFiveAt 10 boardC5 (0, 4) 1 = true ∧
    makesFiveAt 10 boardC5 (5, 4) 1 = false ∧
    evaluateMove 10 boardC5 (0, 4) 1 0 < evaluateMove 10 boardC5 (5, 4) 1 0 := by
  refine ⟨by decide, by decide, by decide, by decide, ?_⟩
  have e1 : evaluateMove 10 boardC5 (0, 4) 1 0 = 100000 := by
    unfold evaluateMove
    rw [if_pos (by decide)]
  have e2 : evaluateMove 10 boardC5 (5, 4) 1 0 = (197490 : ℚ) := by
    unfold evaluateMove
    rw [if_neg (by decide)]
    rw [show evalStages 10 boardC5 (5, 4) 1 = 197490 from by decide]
    norm_num
  rw [e1, e2]
  norm_num

/-- Witness for the amended claim C5 at a concrete input. -/
theorem claim_C5_amended_witness :
    (cellNat boardC5 (0, 4) = 0 ∧ cellNat boardC5 (3, 3) = 0 ∧
     makesFiveAt 10 boardC5 (0, 4) 1 = true ∧
     makesFiveAt 10 boardC5 (3, 3) 1 = false ∧
     makesFiveAt 10 boardC5 (3, 3) (3 - 1) = false ∧ (0 : ℚ) < 1) ∧
    (evaluateMove 10 boardC5 (0, 4) 1 0 = 100000 ∧
     evaluateMove 10 boardC5 (3, 3) 1 0 < evaluateMove 10 boardC5 (0, 4) 1 0) :=
  ⟨⟨by decide, by decide, by decide, by decide, by decide, by norm_num⟩,
   claim_C5_amended 10 boardC5 1 (0, 4) (3, 3) 0 0 (by decide) (by decide)
     (by decide) (by decide) (by decide) (by norm_num)⟩

lemma writeStore_getD_ne (st : List Board) (i r c v : Nat) (k : Nat)
    (h : i ≠ k) : (writeStore st i r c v).getD k [] = st.getD k [] := by
  unfold writeStore
  rw [List.getD_eq_getElem?_getD, List.getElem?_set_ne h,
      ← List.getD_eq_getElem?_getD]

lemma writeStore_getD_self (st : List Board) (i r c v : Nat)
    (h : i < st.length) :
    (writeStore st i r c v).getD i [] = placeAt (st.getD i []) r c v := by
  unfold writeStore
  rw [List.getD_eq_getElem _ _ (by rw [List.length_set]; exact h)]
  exact List.getElem_set_self _

lemma append_single_getD (st : List Board) (x : Board) (i : Nat)
    (h : i < st.length) : (st ++ [x]).getD i [] = st.getD i [] := by
  rw [List.getD_eq_getElem?_getD, List.getElem?_append_left h,
      ← List.getD_eq_getElem?_getD]

lemma append_single_getD_last (st : List Board) (x : Board) :
    (st ++ [x]).getD st.length [] = x := by
  rw [List.getD_eq_getElem _ _ (by simp)]
  exact List.getElem_concat_length st x _ rfl _

lemma placeAt_placeAt (b : Board) (r c v w : Nat) :
    placeAt (placeAt b r c v) r c w = placeAt b r c w := by
  unfold placeAt
  rcases Nat.lt_or_ge r b.length with h | h
  · have hrow : (b.set r ((b.getD r []).set c v)).getD r [] =
        (b.getD r []).set c v := by
      rw [List.getD_eq_getElem _ _ (by rw [List.length_set]; exact h)]
      exact List.getElem_set_self _
    rw [hrow, List.set_set, List.set_set]
  · rw [List.set_eq_of_length_le h, List.set_eq_of_length_le h]

lemma writeStore_length (st : List Board) (i r c v : Nat) :
    (writeStore st i r c v).length = st.length := by
  unfold writeStore
  exact List.length_set st i _

/-- Claim C9: `_evaluate_move` never mutates the board passed to it: in
the store semantics every pre-existing array -- in particular the caller's
board at address 0 -- is unchanged after the call (all writes hit the
private copy), and the returned score is the pure function of the
unmutated input board.  The query utilities `_check_line` and
`_check_open_line` contain no writes at all and are embedded as pure
reads. -/
theorem claim_C9 (N : Nat) (st : List Board) (m : Nat × Nat) (p : Nat)
    (j : ℚ) :
    (∀ i, i < st.length →
      (evaluateMoveSt N st m p j).2.getD i [] = st.getD i []) ∧
    (evaluateMoveSt N st m p j).1 = evaluateMove N (st.getD 0 []) m p j := by
  unfold evaluateMoveSt
  simp only
  set B := st.getD 0 [] with hB
  set W1 := writeStore (st ++ [B]) st.length m.1 m.2 p with hW1
  set W2 := writeStore W1 st.length m.1 m.2 (3 - p) with hW2
  set W3 := writeStore W2 st.length m.1 m.2 p with hW3
  set W4 := writeStore W3 st.length m.1 m.2 (3 - p) with hW4
  have hL1 : W1.length = st.length + 1 := by
    rw [hW1, writeStore_length]
    simp
  have hL2 : W2.length = st.length + 1 := by rw [hW2, writeStore_length, hL1]
  have hL3 : W3.length = st.length + 1 := by rw [hW3, writeStore_length, hL2]
  have r1 : W1.getD st.length [] = placeAt B m.1 m.2 p := by
    rw [hW1, writeStore_getD_self _ _ _ _ _ (by simp), append_single_getD_last]
  have r2 : W2.getD st.length [] = placeAt B m.1 m.2 (3 - p) := by
    rw [hW2, writeStore_getD_self _ _ _ _ _ (by omega), r1, placeAt_placeAt]
  have r3 : W3.getD st.length [] = placeAt B m.1 m.2 p := by
    rw [hW3, writeStore_getD_self _ _ _ _ _ (by omega), r2, placeAt_placeAt]
  have r4 : W4.getD st.length [] = placeAt B m.1 m.2 (3 - p) := by
    rw [hW4, writeStore_getD_self _ _ _ _ _ (by omega), r3, placeAt_placeAt]
  have hframe1 : ∀ i, i < st.length → W1.getD i [] = st.getD i [] := by
    intro i hi
    rw [hW1, writeStore_getD_ne _ _ _ _ _ _ (by omega),
        append_single_getD _ _ _ hi]
  have hframe4 : ∀ i, i < st.length → W4.getD i [] = st.getD i [] := by
    intro i hi
    rw [hW4, writeStore_getD_ne _ _ _ _ _ _ (by omega),
        hW3, writeStore_getD_ne _ _ _ _ _ _ (by omega),
        hW2, writeStore_getD_ne _ _ _ _ _ _ (by omega)]
    exact hframe1 i hi
  rw [r1, r2, r3, r4]
  constructor
  · intro i hi
    split
    · exact hframe1 i hi
    · exact hframe4 i hi
  · split
    · next hcond =>
      rw [evaluateMove, if_pos (show makesFiveAt N B m p = true from hcond)]
    · next hcond =>
      rw [evaluateMove,
          if_neg (show ¬makesFiveAt N B m p = true from hcond)]
      rw [evalStages]

/-- Witness for claim C9 at a concrete store. -/
theorem claim_C9_witness :
    (0 : Nat) < [oneStone3].length ∧
    (evaluateMoveSt 3 [oneStone3] (0, 1) 2 0).2.getD 0 [] =
      [oneStone3].getD 0 [] ∧
    (evaluateMoveSt 3 [oneStone3] (0, 1) 2 0).1 =
      evaluateMove 3 oneStone3 (0, 1) 2 0 :=
  ⟨by decide, (claim_C9 3 [oneStone3] (0, 1) 2 0).1 0 (by decide),
   (claim_C9 3 [oneStone3] (0, 1) 2 0).2⟩

end Gomoku
